import Mathlib

/-!
Verification development for the bmap-cpp repository (src/bmap.h):
a block-map (bmap) descriptor parser and the sparse-copy engine that
consumes it.  The C++ source is shallowly embedded below: text is
modelled as `List Char`, `size_t` as `ℕ` with explicit `% 2^64` where
wrap-around matters, the XML element tree (supplied externally by
tinyxml2) as an inductive tree, fallible code as `Option`/`Except`,
and the IEEE single-precision arithmetic of `Progress::percent` as
exact rational rounding implemented over `ℕ × ℤ` mantissa/exponent
pairs.
-/

namespace Bmap

/-- Numeric value of a list of decimal digit characters, most significant
first; mirrors how `std::stringstream` accumulates digits. -/
def digitsVal (ds : List Char) : ℕ :=
  ds.foldl (fun a c => a * 10 + (c.toNat - 48)) 0

/-- The lambda `to_sizeT` in `bmap::Range::parse`:
`std::stringstream strm(in); size_t out; strm >> out; return out;`.
`operator>>` skips leading whitespace, consumes the longest run of
digits and stops at the first non-digit.  There is no failure check in
the source: when no digit is present the extraction fails and (since
C++11) `out` is value-initialized to `0`.  On overflow the stream
stores the maximal `size_t`, modelled by the `min` clamp. -/
def to_sizeT (s : List Char) : ℕ :=
  let ds := (s.dropWhile Char.isWhitespace).takeWhile Char.isDigit
  if ds = [] then 0 else min (digitsVal ds) (2 ^ 64 - 1)

/-- Splitting a character list at a separator, mirroring
`std::views::split`: `"100-199"` yields `["100", "199"]`, a trailing
separator yields a trailing empty piece. -/
def splitSep (sep : Char) : List Char → List (List Char)
  | [] => [[]]
  | c :: rest =>
    if c = sep then [] :: splitSep sep rest
    else
      match splitSep sep rest with
      | [] => [[c]]
      | p :: ps => (c :: p) :: ps

/-- A parsed block range: `struct Range` in `bmap.h`. -/
structure Range where
  offset : ℕ
  blockCount : ℕ
  checksum : String
  deriving DecidableEq, Repr

/-- An XML `Range` element as `bmap::Range::parse` sees it: its text
content (`GetText`) and its optional `chksum` attribute
(`Attribute("chksum")` returns null when absent). -/
structure RangeElem where
  text : List Char
  chksum : Option String
  deriving DecidableEq, Repr

/-- The wrapping `size_t` computation `to_sizeT(end) - to_sizeT(start) + 1`
performed in the hyphenated branch of `Range::parse`; both subtraction
and the increment wrap modulo `2^64`. -/
def lenWrap (start endv : ℕ) : ℕ :=
  ((endv + 2 ^ 64 - start % 2 ^ 64) % 2 ^ 64 + 1) % 2 ^ 64

/-- `bmap::Range::parse` (bmap.h:101-135).  If the text holds no `'-'`
the whole text is parsed as the start block and the length is `1`;
otherwise the text is split at `'-'` and the first two pieces give
`start` and `start..end` inclusive, `len = end - start + 1` in wrapping
`size_t` arithmetic.  The `chksum` attribute is then read; when it is
absent `Attribute` returns a null pointer and `std::string(checksum)`
is undefined behaviour (in practice a crash), modelled as `none`: no
`Range` value is produced. -/
def Range.parse (elem : RangeElem) : Option Range :=
  let stringVal := elem.text
  let startLen : ℕ × ℕ :=
    if '-' ∈ stringVal then
      let parts := splitSep '-' stringVal
      let start := to_sizeT (parts.getD 0 [])
      (start, lenWrap start (to_sizeT (parts.getD 1 [])))
    else (to_sizeT stringVal, 1)
  match elem.chksum with
  | some c => some ⟨startLen.1, startLen.2, c⟩
  | none => none

/-- Abstract XML element tree, the external tinyxml2 collaborator:
an element has a name, text content, attributes and child elements. -/
inductive XmlElem where
  | node (name : String) (text : List Char) (chksum : Option String)
      (children : List XmlElem)

/-- Name of an element. -/
def XmlElem.name : XmlElem → String
  | .node n _ _ _ => n

/-- Text content of an element (`GetText`). -/
def XmlElem.text : XmlElem → List Char
  | .node _ t _ _ => t

/-- The `chksum` attribute of an element (`Attribute("chksum")`). -/
def XmlElem.chksumAttr : XmlElem → Option String
  | .node _ _ a _ => a

/-- Child elements of an element. -/
def XmlElem.children : XmlElem → List XmlElem
  | .node _ _ _ cs => cs

/-- `FirstChildElement(name)`: the first child element carrying the
given name, or null. -/
def XmlElem.firstChild (e : XmlElem) (n : String) : Option XmlElem :=
  e.children.find? (fun c => c.name = n)

/-- The `Range` iteration of `BmapFile::from_xml_data`: starting from
`FirstChildElement("Range")` the loop advances with
`NextSiblingElement()` with no name filter, so it visits the first
child named `Range` and then every later sibling element regardless of
its name. -/
def XmlElem.rangeElems (e : XmlElem) : List XmlElem :=
  e.children.dropWhile (fun c => c.name ≠ "Range")

/-- `xml::value<size_t>`: parse the element text with `std::stringstream`
and (unlike `to_sizeT`) check `strm.fail()`, so text with no leading
digits is rejected. -/
def parseSizeT (s : List Char) : Option ℕ :=
  let ds := (s.dropWhile Char.isWhitespace).takeWhile Char.isDigit
  if ds = [] then none else some (min (digitsVal ds) (2 ^ 64 - 1))

/-- `xml::valueFromSimpleXPath<size_t>` for the single-segment paths used
by `from_xml_data`: look up the named child (throwing when absent) and
convert its text (throwing on conversion failure). -/
def lookupSizeT (root : XmlElem) (n : String) : Except String ℕ :=
  match root.firstChild n with
  | none => .error ("Unable to evaluate XPath. No child found with name " ++ n)
  | some e =>
    match parseSizeT e.text with
    | none => .error "Failed to convert element to type size_t"
    | some v => .ok v

/-- `xml::valueFromSimpleXPath<std::string>`: look up the named child and
take its text verbatim (no conversion, no failure check). -/
def lookupString (root : XmlElem) (n : String) : Except String (List Char) :=
  match root.firstChild n with
  | none => .error ("Unable to evaluate XPath. No child found with name " ++ n)
  | some e => .ok e.text

/-- The parsed descriptor: `struct BmapFile` in `bmap.h`. -/
structure BmapFile where
  imageSize : ℕ
  blockSize : ℕ
  blocksCount : ℕ
  mappedBlocksCount : ℕ
  checksumType : List Char
  checksum : List Char
  blockMap : List Range
  deriving DecidableEq

/-- Parse every collected `Range` element; a `Range::parse` that hits the
null-`chksum` undefined behaviour surfaces as an error (the C++ process
crashes there, so no descriptor is produced either way). -/
def parseRanges : List XmlElem → Except String (List Range)
  | [] => .ok []
  | e :: es =>
    match Range.parse ⟨e.text, e.chksumAttr⟩ with
    | none => .error "undefined behaviour: null chksum attribute"
    | some r => (parseRanges es).map (fun rs => r :: rs)

/-- `BmapFile::from_xml_data` (bmap.h:161-197).  The raw byte vector is
checked for emptiness first; only then is the XML document parsed (the
resulting root element is the abstract `root` argument, supplied by the
external tinyxml2 collaborator) and the six scalar fields and the range
list are read.  A missing `BlockMap` element yields an empty range
list. -/
def BmapFile.from_xml_data (bytes : List Char) (root : XmlElem) :
    Except String BmapFile :=
  if bytes = [] then .error "bmap file is empty!"
  else do
    let imageSize ← lookupSizeT root "ImageSize"
    let blockSize ← lookupSizeT root "BlockSize"
    let blocksCount ← lookupSizeT root "BlocksCount"
    let mappedBlocksCount ← lookupSizeT root "MappedBlocksCount"
    let chcksmType ← lookupString root "ChecksumType"
    let chcksum ← lookupString root "BmapFileChecksum"
    let blockMap ←
      match root.firstChild "BlockMap" with
      | none => .ok []
      | some bm => parseRanges bm.rangeElems
    return ⟨imageSize, blockSize, blocksCount, mappedBlocksCount,
            chcksmType, chcksum, blockMap⟩

/-! ### Single-precision arithmetic of `Progress::percent`

`Progress::percent` evaluates
`uint8_t(100.0f / (float)mappedBlocks * (float)blocksWritten)`:
two conversions to `float`, one `float` division, one `float`
multiplication, then truncation toward zero.  IEEE-754 binary32
round-to-nearest-even is modelled exactly: a positive rational is
rounded to a 24-bit mantissa `n` with exponent `e` (value
`n * 2^(e-23)`), computed purely over `ℕ`/`ℤ` so concrete instances
evaluate in the kernel.  All quantities reached here are normal
binary32 values (no overflow, underflow or NaN arises for
`0 < mappedBlocks < 2^64`). -/

/-- Fuel-bounded floor of `log2`, structurally recursive so that the
kernel can evaluate it; `400` units of fuel cover every argument below
`2^400`. -/
def log2fuel : ℕ → ℕ → ℕ
  | 0, _ => 0
  | fuel + 1, n => if 2 ≤ n then log2fuel fuel (n / 2) + 1 else 0

/-- Round the nonnegative rational `a / b` to the nearest integer, ties
to even. -/
def rheN (a b : ℕ) : ℕ :=
  if 2 * (a % b) < b then a / b
  else if b < 2 * (a % b) then a / b + 1
  else if (a / b) % 2 = 0 then a / b else a / b + 1

/-- A nonnegative rational as an unreduced numerator/denominator pair. -/
abbrev PRat := ℕ × ℕ

/-- A binary32 value as a mantissa/exponent pair: the pair `(n, e)`
denotes `n * 2^(e-23)`. -/
abbrev F32 := ℕ × ℤ

/-- Floor of the base-2 logarithm of the rational `p.1 / p.2`, computed
by scaling the numerator by `2^200` so that every magnitude from
`2^-200` up to `2^200` is covered. -/
def expP (p : PRat) : ℤ :=
  (log2fuel 400 (p.1 * 2 ^ 200 / p.2) : ℤ) - 200

/-- Mantissa of the binary32 rounding of `p.1 / p.2`: the rational
scaled to `[2^23, 2^24)` and rounded to the nearest integer, ties to
even. -/
def mantP (p : PRat) : ℕ :=
  let s : ℤ := 23 - expP p
  if 0 ≤ s then rheN (p.1 * 2 ^ s.toNat) p.2
  else rheN p.1 (p.2 * 2 ^ (-s).toNat)

/-- Round a nonnegative rational to the nearest binary32 value
(round-to-nearest, ties to even).  The exponent is the floor of the
base-2 logarithm; the mantissa is the scaled rational rounded to an
integer, which lands in `[2^23, 2^24]` for positive input. -/
def flP (p : PRat) : F32 :=
  (mantP p, expP p)

/-- The rational value of a binary32 pair, as a numerator/denominator
pair. -/
def toPRat (x : F32) : PRat :=
  if 23 ≤ x.2 then (x.1 * 2 ^ (x.2 - 23).toNat, 1)
  else (x.1, 2 ^ (23 - x.2).toNat)

/-- The exact product of two binary32 values as a rational pair. -/
def mulPairF (x y : F32) : PRat :=
  ((toPRat x).1 * (toPRat y).1, (toPRat x).2 * (toPRat y).2)

/-- The exact quotient of two binary32 values as a rational pair. -/
def divPairF (x y : F32) : PRat :=
  ((toPRat x).1 * (toPRat y).2, (toPRat x).2 * (toPRat y).1)

/-- Correctly rounded binary32 multiplication. -/
def fmulP (x y : F32) : F32 := flP (mulPairF x y)

/-- Correctly rounded binary32 division. -/
def fdivP (x y : F32) : F32 := flP (divPairF x y)

/-- Truncation toward zero of a nonnegative binary32 value, the effect
of the `uint8_t(...)` cast on the values reached here (all below
`2^8`, so the cast is defined and keeps the integer part). -/
def floorF (x : F32) : ℕ :=
  if 23 ≤ x.2 then x.1 * 2 ^ (x.2 - 23).toNat
  else x.1 / 2 ^ (23 - x.2).toNat

/-- `struct Progress` in `bmap.h`: the fixed mapped-block total and the
running written-block counter. -/
structure Progress where
  mappedBlocks : ℕ
  blocksWritten : ℕ
  deriving DecidableEq, Repr

/-- `Progress::percent` (bmap.h:230-232):
`uint8_t(100.0f / (float)mappedBlocks * (float)blocksWritten)`, the
exact binary32 evaluation followed by truncation. -/
def percentF32 (mapped written : ℕ) : ℕ :=
  floorF (fmulP (fdivP (flP (100, 1)) (flP (mapped, 1))) (flP (written, 1)))

/-- Method form of `Progress::percent`. -/
def Progress.percent (p : Progress) : ℕ :=
  percentF32 p.mappedBlocks p.blocksWritten

/-! ### The sparse-copy engine `bmap::copy`

The range-driven loop of `bmap::copy` (bmap.h:289-325) is embedded as
an explicit state transformer.  The source stream is a total byte
function (reads never run short), the destination starts out entirely
unwritten (`fun _ => none`) so untouched bytes are observable, and the
trace of reads, writes and progress callbacks is recorded most recent
first.  The per-range chunk loop

`for (auto blockCount = range.blockCount; blockCount > 0;) { ... }`

makes progress only when the transfer buffer holds at least one block;
it is embedded with explicit fuel, and `none` marks fuel exhaustion
with blocks still to transfer.  With `bufferMaxBlocks = 0` the C++
loop repeats forever with `readBlocks = 0`; correspondingly the
embedding returns `none` for every fuel value
(`chunkLoop_maxB_zero`). -/

/-- `MAX_BUF_SIZE = 4 * 1024 * 1024 * 2` (8 MiB). -/
def MAX_BUF_SIZE : ℕ := 4 * 1024 * 1024 * 2

/-- The mutable state of one `bmap::copy` call: the byte cursors of the
source and destination streams, the destination contents, the
`progress.blocksWritten` counter, and the recorded traces (most recent
entry first). -/
structure CopyState where
  srcPos : ℕ
  dstPos : ℕ
  dst : ℕ → Option ℕ
  blocksWritten : ℕ
  reads : List (ℕ × ℕ)
  writes : List (ℕ × ℕ)
  callbacks : List Progress

/-- The state at the start of `bmap::copy`: both streams at byte `0`,
nothing written, `progress.blocksWritten = 0`, empty traces. -/
def initState : CopyState :=
  ⟨0, 0, fun _ => none, 0, [], [], []⟩

/-- One chunk of the inner transfer loop: read
`byteCount = readBlocks * blockSize` bytes from the source cursor,
write them at the destination cursor, advance both cursors, bump
`blocksWritten` by `readBlocks` and (when a callback was supplied)
invoke it with the updated `Progress`. -/
def chunkStep (bs mapped : ℕ) (src : ℕ → ℕ) (hasCb : Bool)
    (readBlocks : ℕ) (st : CopyState) : CopyState :=
  let byteCount := readBlocks * bs
  { srcPos := st.srcPos + byteCount
    dstPos := st.dstPos + byteCount
    dst := fun i =>
      if st.dstPos ≤ i ∧ i < st.dstPos + byteCount then
        some (src (st.srcPos + (i - st.dstPos)))
      else st.dst i
    blocksWritten := st.blocksWritten + readBlocks
    reads := (st.srcPos, byteCount) :: st.reads
    writes := (st.dstPos, byteCount) :: st.writes
    callbacks :=
      if hasCb then ⟨mapped, st.blocksWritten + readBlocks⟩ :: st.callbacks
      else st.callbacks }

/-- The inner loop of `bmap::copy` for one range, with explicit fuel:
while blocks remain, transfer `min bufferMaxBlocks blockCount` blocks
per iteration.  Returns `none` when the fuel is exhausted with blocks
still pending; fuel equal to the block count always suffices when
`maxB ≥ 1`. -/
def chunkLoop (bs maxB mapped : ℕ) (src : ℕ → ℕ) (hasCb : Bool) :
    ℕ → ℕ → CopyState → Option CopyState
  | 0, c, st => if c = 0 then some st else none
  | fuel + 1, c, st =>
    if c = 0 then some st
    else
      let readBlocks := min maxB c
      chunkLoop bs maxB mapped src hasCb fuel (c - readBlocks)
        (chunkStep bs mapped src hasCb readBlocks st)

/-- One iteration of the outer `for (const auto &range : ...)` loop.
When `range.offset > progress.blocksWritten` both streams are advanced
by `range.offset - blocksWritten` via `std::fseek(..., SEEK_CUR)` and
`seekg(..., cur)`; those offsets are in BYTES, so the seek distance is
the block difference itself, not the block difference times the block
size (the source never multiplies by `blockSize`).  Then the range's
blocks are transferred by the chunk loop.  The trailing `fsync` has no
observable effect in this model. -/
def rangeStep (bs maxB mapped : ℕ) (src : ℕ → ℕ) (hasCb : Bool)
    (acc : Option CopyState) (r : Range) : Option CopyState :=
  acc.bind fun st =>
    let st1 :=
      if r.offset > st.blocksWritten then
        { st with
            srcPos := st.srcPos + (r.offset - st.blocksWritten)
            dstPos := st.dstPos + (r.offset - st.blocksWritten) }
      else st
    chunkLoop bs maxB mapped src hasCb r.blockCount r.blockCount st1

/-- Number of blocks that fit in the transfer buffer:
`std::vector<uint8_t> buff(std::min(blockSize * 1024 * 2, MAX_BUF_SIZE))`
followed by `buff.size() / blockSize`; the product is `size_t`
arithmetic, hence the `% 2^64`. -/
def bufferMaxBlocks (bs : ℕ) : ℕ :=
  min (bs * 1024 * 2 % 2 ^ 64) MAX_BUF_SIZE / bs

/-- The range-walking core of `bmap::copy`: fold the outer loop over
the descriptor's range list starting from the initial state. -/
def copyRanges (b : BmapFile) (src : ℕ → ℕ) (hasCb : Bool) :
    Option CopyState :=
  b.blockMap.foldl
    (rangeStep b.blockSize (bufferMaxBlocks b.blockSize)
      b.mappedBlocksCount src hasCb)
    (some initState)

/-! ### Rational semantics of the binary32 pairs -/

/-- Rational value denoted by a binary32 mantissa/exponent pair:
`n * 2^(e-23)`. -/
def valF (x : F32) : ℚ := (x.1 : ℚ) * (2 : ℚ) ^ (x.2 - 23)

/-- Rational value of a numerator/denominator pair. -/
def valP (p : PRat) : ℚ := (p.1 : ℚ) / (p.2 : ℚ)

/-- A positive rational pair within the magnitude window handled by
`flP`: value in `[2^-200, 2^200)`.  Every quantity reached by
`Progress::percent` for `0 < mappedBlocks < 2^64` lies well inside. -/
def goodP (p : PRat) : Prop :=
  0 < p.1 ∧ 0 < p.2 ∧ p.2 ≤ p.1 * 2 ^ 200 ∧ p.1 < p.2 * 2 ^ 200

/-- Total number of blocks of a range list, the amount by which one
copy run increments `blocksWritten`. -/
def sumBlocks : List Range → ℕ
  | [] => 0
  | r :: rs => r.blockCount + sumBlocks rs

/-- Invariant of the recorded progress callbacks (most recent first):
every recorded `Progress` carries the descriptor's mapped total and a
written count no larger than the current one, and the written counts
are non-increasing toward the front, i.e. non-decreasing in
chronological order. -/
def cbOk (mapped : ℕ) (st : CopyState) : Prop :=
  (∀ p ∈ st.callbacks,
    p.mappedBlocks = mapped ∧ p.blocksWritten ≤ st.blocksWritten) ∧
  st.callbacks.Chain' (fun a b => b.blocksWritten ≤ a.blocksWritten)

/-! ### Concrete fixtures used in counterexamples and witnesses -/

/-- The identity byte pattern: source byte `i` has value `i`, so every
block carries a distinct pattern and any misplaced write is visible. -/
def srcId : ℕ → ℕ := fun n => n

/-- A descriptor with `blockSize = 4096` and ranges `[{0,2},{10,3}]`,
the configuration named by the specification's sparse-copy example. -/
def bmapSeekExample : BmapFile :=
  ⟨1048576, 4096, 256, 5, [], [], [⟨0, 2, "c1"⟩, ⟨10, 3, "c2"⟩]⟩

/-- A descriptor with a single fully mapped range, used to exercise the
progress-callback sequence. -/
def bmapMonoExample : BmapFile :=
  ⟨40960, 4096, 10, 10, [], [], [⟨0, 10, "c"⟩]⟩

/-- A well-formed descriptor document whose `BlockMap` holds one `Range`
element with the non-numeric text `abc`. -/
def rootMalformedRange : XmlElem :=
  .node "bmap" [] none
    [.node "ImageSize" "1048576".toList none [],
     .node "BlockSize" "4096".toList none [],
     .node "BlocksCount" "256".toList none [],
     .node "MappedBlocksCount" "1".toList none [],
     .node "ChecksumType" "sha256".toList none [],
     .node "BmapFileChecksum" "cafe".toList none [],
     .node "BlockMap" [] none
       [.node "Range" "abc".toList (some "deadbeef") []]]

/-- A descriptor document whose required scalar elements are all present
and numeric but which has no `BlockMap` element. -/
def rootNoBlockMap : XmlElem :=
  .node "bmap" [] none
    [.node "ImageSize" "1048576".toList none [],
     .node "BlockSize" "4096".toList none [],
     .node "BlocksCount" "256".toList none [],
     .node "MappedBlocksCount" "10".toList none [],
     .node "ChecksumType" "sha256".toList none [],
     .node "BmapFileChecksum" "cafe".toList none []]

/-! ### Decimal numerals and parsing lemmas -/

/-- Fuel-bounded most-significant-first decimal rendering of a natural
number, used to state theorems about numeric range texts. -/
def reprAux : ℕ → ℕ → List Char
  | 0, _ => []
  | fuel + 1, n =>
    if n < 10 then [Nat.digitChar n]
    else reprAux fuel (n / 10) ++ [Nat.digitChar (n % 10)]

/-- Decimal rendering of a natural number as characters. -/
def numRepr (n : ℕ) : List Char := reprAux (n + 1) n

theorem digitChar_isDigit {k : ℕ} (h : k < 10) :
    (Nat.digitChar k).isDigit = true := by
  interval_cases k <;> decide

theorem digitChar_toNat {k : ℕ} (h : k < 10) :
    (Nat.digitChar k).toNat = k + 48 := by
  interval_cases k <;> decide

theorem reprAux_digits :
    ∀ fuel n, ∀ c ∈ reprAux fuel n, c.isDigit = true := by
  intro fuel
  induction fuel with
  | zero => intro n c hc; simp [reprAux] at hc
  | succ f ih =>
    intro n c hc
    by_cases h : n < 10
    · simp [reprAux, h] at hc
      subst hc; exact digitChar_isDigit h
    · simp [reprAux, h] at hc
      rcases hc with hc | hc
      · exact ih _ c hc
      · subst hc; exact digitChar_isDigit (Nat.mod_lt _ (by norm_num))

theorem digitsVal_append (xs : List Char) (c : Char) :
    digitsVal (xs ++ [c]) = digitsVal xs * 10 + (c.toNat - 48) := by
  simp [digitsVal, List.foldl_append]

theorem reprAux_val :
    ∀ fuel n, 0 < fuel → n < 10 ^ fuel →
      digitsVal (reprAux fuel n) = n ∧ reprAux fuel n ≠ [] := by
  intro fuel
  induction fuel with
  | zero => intro n h; omega
  | succ f ih =>
    intro n _ hn
    by_cases h : n < 10
    · refine ⟨?_, by simp [reprAux, h]⟩
      simp [reprAux, h, digitsVal, digitChar_toNat h]
    · have hf : 0 < f := by
        rcases Nat.eq_zero_or_pos f with hf0 | hf0
        · subst hf0; simp at hn; omega
        · exact hf0
      have hdiv : n / 10 < 10 ^ f := by
        have : n < 10 * 10 ^ f := by
          calc n < 10 ^ (f + 1) := hn
          _ = 10 * 10 ^ f := by ring
        exact Nat.div_lt_of_lt_mul this
      obtain ⟨hval, _⟩ := ih (n / 10) hf hdiv
      constructor
      · simp only [reprAux, if_neg h, digitsVal_append, hval,
          digitChar_toNat (Nat.mod_lt n (by norm_num : (0:ℕ) < 10))]
        omega
      · simp [reprAux, h]

theorem numRepr_digits (n : ℕ) : ∀ c ∈ numRepr n, c.isDigit = true :=
  reprAux_digits (n + 1) n

theorem numRepr_val (n : ℕ) :
    digitsVal (numRepr n) = n ∧ numRepr n ≠ [] := by
  refine reprAux_val (n + 1) n (Nat.succ_pos n) ?_
  calc n < 2 ^ n := Nat.lt_two_pow n
  _ ≤ 2 ^ (n + 1) := Nat.pow_le_pow_right (by norm_num) (Nat.le_succ n)
  _ ≤ 10 ^ (n + 1) := Nat.pow_le_pow_left (by norm_num) _

theorem isDigit_not_isWhitespace {c : Char} (h : c.isDigit = true) :
    c.isWhitespace = false := by
  cases hws : c.isWhitespace
  · rfl
  · exfalso
    have hd : c = ' ' ∨ c = '\t' ∨ c = '\r' ∨ c = '\n' := by
      simpa [Char.isWhitespace, or_assoc] using hws
    rcases hd with h1 | h1 | h1 | h1 <;> (subst h1; exact absurd h (by decide))

theorem isDigit_ne_dash {c : Char} (h : c.isDigit = true) : c ≠ '-' := by
  intro hc; subst hc; simp at h

theorem dropWhile_ws_of_digits (l : List Char)
    (h : ∀ c ∈ l, c.isDigit = true) :
    l.dropWhile Char.isWhitespace = l := by
  cases l with
  | nil => rfl
  | cons c cs =>
    have := isDigit_not_isWhitespace (h c (List.mem_cons_self c cs))
    simp [List.dropWhile_cons, this]

theorem takeWhile_digits_of_digits (l : List Char)
    (h : ∀ c ∈ l, c.isDigit = true) :
    l.takeWhile Char.isDigit = l := by
  induction l with
  | nil => rfl
  | cons c cs ih =>
    have hc := h c (List.mem_cons_self c cs)
    have ih2 := ih (fun d hd => h d (List.mem_cons_of_mem c hd))
    simp [List.takeWhile_cons, hc, ih2]

theorem to_sizeT_numRepr (n : ℕ) (hn : n < 2 ^ 64) :
    to_sizeT (numRepr n) = n := by
  obtain ⟨hval, hne⟩ := numRepr_val n
  unfold to_sizeT
  rw [dropWhile_ws_of_digits _ (numRepr_digits n),
    takeWhile_digits_of_digits _ (numRepr_digits n), if_neg hne, hval]
  omega

theorem takeWhile_digits_nil (l : List Char)
    (h : ∀ c ∈ l, c.isDigit = false) :
    l.takeWhile Char.isDigit = [] := by
  cases l with
  | nil => rfl
  | cons c cs => simp [List.takeWhile_cons, h c (List.mem_cons_self c cs)]

theorem to_sizeT_nonNumeric (l : List Char)
    (h : ∀ c ∈ l, c.isDigit = false) : to_sizeT l = 0 := by
  unfold to_sizeT
  have hsub : ∀ c ∈ l.dropWhile Char.isWhitespace, c.isDigit = false :=
    fun c hc => h c ((List.dropWhile_sublist _).subset hc)
  rw [takeWhile_digits_nil _ hsub]
  simp

theorem splitSep_ne_nil (sep : Char) : ∀ l, splitSep sep l ≠ [] := by
  intro l
  induction l with
  | nil => simp [splitSep]
  | cons c cs ih =>
    by_cases h : c = sep
    · simp [splitSep, h]
    · simp only [splitSep, if_neg h]
      rcases hs : splitSep sep cs with _ | ⟨p, ps⟩
      · exact absurd hs ih
      · simp

theorem splitSep_no_sep (sep : Char) :
    ∀ l, sep ∉ l → splitSep sep l = [l] := by
  intro l
  induction l with
  | nil => intro _; rfl
  | cons c cs ih =>
    intro h
    have hc : ¬ c = sep := fun hh => h (hh ▸ List.mem_cons_self c cs)
    have hcs : sep ∉ cs := fun hh => h (List.mem_cons_of_mem c hh)
    simp only [splitSep, if_neg hc, ih hcs]

theorem splitSep_append (sep : Char) (xs ys : List Char) (h : sep ∉ xs) :
    splitSep sep (xs ++ sep :: ys) = xs :: splitSep sep ys := by
  induction xs with
  | nil => simp [splitSep]
  | cons c cs ih =>
    have hc : ¬ c = sep := fun hh => h (hh ▸ List.mem_cons_self c cs)
    have hcs : sep ∉ cs := fun hh => h (List.mem_cons_of_mem c hh)
    simp only [List.cons_append, splitSep, if_neg hc]
    rw [show cs.append (sep :: ys) = cs ++ sep :: ys from rfl, ih hcs]

theorem dash_not_mem_numRepr (n : ℕ) : '-' ∉ numRepr n := by
  intro h
  exact isDigit_ne_dash (numRepr_digits n _ h) rfl

theorem range_parse_hyphen (a b : ℕ) (chk : String)
    (ha : a < 2 ^ 64) (hb : b < 2 ^ 64) :
    Range.parse ⟨numRepr a ++ '-' :: numRepr b, some chk⟩ =
      some ⟨a, lenWrap a b, chk⟩ := by
  have hmem : '-' ∈ numRepr a ++ '-' :: numRepr b := by simp
  have hsplit : splitSep '-' (numRepr a ++ '-' :: numRepr b) =
      [numRepr a, numRepr b] := by
    rw [splitSep_append '-' _ _ (dash_not_mem_numRepr a),
      splitSep_no_sep '-' _ (dash_not_mem_numRepr b)]
  simp only [Range.parse]
  rw [if_pos hmem, hsplit]
  simp [to_sizeT_numRepr a ha, to_sizeT_numRepr b hb]

/-- C2: `Range::parse` decodes a hyphen-free numeral `a` as the
one-block range `{offset a, blockCount 1}` and a hyphenated pair
`a-b` with `a ≤ b` as `{offset a, blockCount b - a + 1}` (the block
count fitting in `size_t`); in particular `"100"` gives `{100, 1}`,
`"100-199"` gives `{100, 100}` and `"5-5"` gives `{5, 1}`. -/
theorem range_parse_decodes (a b : ℕ) (chk : String) (ha : a < 2 ^ 64)
    (hb : b < 2 ^ 64) (hab : a ≤ b) (hsz : b - a + 1 < 2 ^ 64) :
    Range.parse ⟨numRepr a, some chk⟩ = some ⟨a, 1, chk⟩ ∧
    Range.parse ⟨numRepr a ++ '-' :: numRepr b, some chk⟩ =
      some ⟨a, b - a + 1, chk⟩ := by
  constructor
  · simp only [Range.parse]
    rw [if_neg (dash_not_mem_numRepr a), to_sizeT_numRepr a ha]
  · rw [range_parse_hyphen a b chk ha hb]
    have hw : lenWrap a b = b - a + 1 := by unfold lenWrap; omega
    rw [hw]

/-- Witness for `range_parse_decodes` at the specification's own
examples `"100"` and `"100-199"`. -/
theorem range_parse_decodes_witness :
    Range.parse ⟨numRepr 100, some "x"⟩ = some ⟨100, 1, "x"⟩ ∧
    Range.parse ⟨numRepr 100 ++ '-' :: numRepr 199, some "x"⟩ =
      some ⟨100, 100, "x"⟩ :=
  range_parse_decodes 100 199 "x" (by norm_num) (by norm_num)
    (by norm_num) (by norm_num)

/-- C9: on an inverted pair `a-b` with `b < a`, `Range::parse` does not
fail: it returns offset `a` and the wrapped `size_t` block count
`(b - a + 1) mod 2^64`. -/
theorem range_parse_inverted_wraps (a b : ℕ) (chk : String)
    (hba : b < a) (ha : a < 2 ^ 64) :
    ∃ r, Range.parse ⟨numRepr a ++ '-' :: numRepr b, some chk⟩ = some r ∧
      r.offset = a ∧
      (r.blockCount : ℤ) = ((b : ℤ) - (a : ℤ) + 1) % 2 ^ 64 := by
  refine ⟨⟨a, lenWrap a b, chk⟩,
    range_parse_hyphen a b chk ha (lt_trans hba ha), rfl, ?_⟩
  dsimp only
  unfold lenWrap
  omega

/-- Witness for `range_parse_inverted_wraps` at `"5-3"`, whose block
count wraps to `2^64 - 1`. -/
theorem range_parse_inverted_wraps_witness :
    ∃ r, Range.parse ⟨numRepr 5 ++ '-' :: numRepr 3, some "x"⟩ = some r ∧
      r.offset = 5 ∧
      (r.blockCount : ℤ) = ((3 : ℤ) - (5 : ℤ) + 1) % 2 ^ 64 :=
  range_parse_inverted_wraps 5 3 "x" (by norm_num) (by norm_num)

/-- C3 (amended): `Range::parse` does not reject malformed range text.
The extraction helper performs no failure check, and a failed
`std::stringstream` extraction value-initializes the result to `0`, so
hyphen-free non-numeric text parses to the range `{offset 0,
blockCount 1}` and descriptor construction carries on. -/
theorem range_parse_nonnumeric_zero_one (text : List Char) (chk : String)
    (h : ∀ c ∈ text, c.isDigit = false ∧ c ≠ '-') :
    Range.parse ⟨text, some chk⟩ = some ⟨0, 1, chk⟩ := by
  have hdash : '-' ∉ text := fun hm => (h _ hm).2 rfl
  simp only [Range.parse]
  rw [if_neg hdash, to_sizeT_nonNumeric text (fun c hc => (h c hc).1)]

/-- Witness for `range_parse_nonnumeric_zero_one` at the text `abc`. -/
theorem range_parse_nonnumeric_zero_one_witness :
    Range.parse ⟨"abc".toList, some "x"⟩ = some ⟨0, 1, "x"⟩ :=
  range_parse_nonnumeric_zero_one "abc".toList "x" (by decide)

/-- Counterexample to C3: a descriptor whose `BlockMap` contains the
non-numeric range text `abc` is accepted in full — construction does
not fail and the malformed range becomes `{offset 0, blockCount 1}`. -/
theorem descriptor_accepts_malformed_range :
    BmapFile.from_xml_data "x".toList rootMalformedRange =
      .ok ⟨1048576, 4096, 256, 1, "sha256".toList, "cafe".toList,
        [⟨0, 1, "deadbeef"⟩]⟩ := rfl

/-- C4: when the `chksum` attribute is absent, `Attribute("chksum")`
returns a null pointer and `Range::parse` constructs `std::string`
from it — undefined behaviour (in practice a crash), so no `Range`
with an empty checksum is ever produced, for any text body. -/
theorem range_parse_missing_chksum_crashes (text : List Char) :
    Range.parse ⟨text, none⟩ = none := rfl

/-- C10: `BmapFile::from_xml_data` rejects an empty byte vector with
the error `bmap file is empty!` before consulting the XML tree at all
(the result is this error for every possible parsed root). -/
theorem from_xml_data_empty_rejected (root : XmlElem) :
    BmapFile.from_xml_data [] root = .error "bmap file is empty!" := rfl

/-! ### Properties of the binary32 rounding -/

theorem log2fuel_correct :
    ∀ fuel x, 1 ≤ x → x < 2 ^ fuel →
      2 ^ log2fuel fuel x ≤ x ∧ x < 2 ^ (log2fuel fuel x + 1) := by
  intro fuel
  induction fuel with
  | zero => intro x h1 h2; simp at h2; omega
  | succ f ih =>
    intro x h1 h2
    by_cases hx : 2 ≤ x
    · have hdiv1 : 1 ≤ x / 2 := by omega
      have hdiv2 : x / 2 < 2 ^ f := by
        have hf : x < 2 ^ f * 2 := by
          calc x < 2 ^ (f + 1) := h2
          _ = 2 ^ f * 2 := by ring
        omega
      obtain ⟨hl, hr⟩ := ih (x / 2) hdiv1 hdiv2
      have hres : log2fuel (f + 1) x = log2fuel f (x / 2) + 1 := by
        simp [log2fuel, hx]
      rw [hres]
      constructor
      · have hps : 2 ^ (log2fuel f (x / 2) + 1) = 2 * 2 ^ log2fuel f (x / 2) := by
          ring
        rw [hps]; omega
      · have hps : 2 ^ (log2fuel f (x / 2) + 1 + 1) =
            2 * 2 ^ (log2fuel f (x / 2) + 1) := by ring
        rw [hps]; omega
    · have hx1 : x = 1 := by omega
      subst hx1
      simp [log2fuel, hx]

theorem rheN_ge (a b : ℕ) : a / b ≤ rheN a b := by
  unfold rheN; split_ifs <;> omega

theorem rheN_le (a b : ℕ) : rheN a b ≤ a / b + 1 := by
  unfold rheN; split_ifs <;> omega

theorem natdiv_mono_cross {a b c d : ℕ} (hb : 0 < b) (hd : 0 < d)
    (h : a * d ≤ c * b) : a / b ≤ c / d := by
  rw [Nat.le_div_iff_mul_le hd]
  have h1 : a / b * b ≤ a := Nat.div_mul_le_self a b
  have h2 : a / b * d * b ≤ c * b := by
    calc a / b * d * b = a / b * b * d := by ring
    _ ≤ a * d := Nat.mul_le_mul_right d h1
    _ ≤ c * b := h
  exact Nat.le_of_mul_le_mul_right h2 hb

theorem rheN_mono {a b c d : ℕ} (hb : 0 < b) (hd : 0 < d)
    (h : a * d ≤ c * b) : rheN a b ≤ rheN c d := by
  have hq : a / b ≤ c / d := natdiv_mono_cross hb hd h
  rcases eq_or_lt_of_le hq with heq | hlt
  · have ha2 : b * (a / b) + a % b = a := Nat.div_add_mod a b
    have hc2 : d * (c / d) + c % d = c := Nat.div_add_mod c d
    have hcross : a % b * d ≤ c % d * b := by
      have e1 : a * d = b * (a / b) * d + a % b * d := by
        conv_lhs => rw [← ha2]
        ring
      have e2 : c * b = d * (c / d) * b + c % d * b := by
        conv_lhs => rw [← hc2]
        ring
      rw [e1, e2, heq] at h
      nlinarith [h]
    have key : b ≤ 2 * (a % b) → 2 * (c % d) ≤ d →
        b = 2 * (a % b) ∧ d = 2 * (c % d) := by
      intro hup hdown
      have m1 : b * d ≤ 2 * (a % b) * d := Nat.mul_le_mul_right d hup
      have m2 : 2 * (a % b) * d ≤ 2 * (c % d) * b := by
        calc 2 * (a % b) * d = 2 * (a % b * d) := by ring
        _ ≤ 2 * (c % d * b) := mul_le_mul_left' hcross 2
        _ = 2 * (c % d) * b := by ring
      have m3 : 2 * (c % d) * b ≤ d * b := Nat.mul_le_mul_right b hdown
      have e1 : 2 * (a % b) * d = b * d := by
        have hle : 2 * (a % b) * d ≤ b * d := by
          calc 2 * (a % b) * d ≤ 2 * (c % d) * b := m2
          _ ≤ d * b := m3
          _ = b * d := by ring
        exact le_antisymm hle m1
      have e2 : 2 * (c % d) * b = d * b := by
        have hge : d * b ≤ 2 * (c % d) * b := by
          calc d * b = b * d := by ring
          _ ≤ 2 * (a % b) * d := m1
          _ ≤ 2 * (c % d) * b := m2
        exact le_antisymm m3 hge
      exact ⟨(Nat.eq_of_mul_eq_mul_right hd e1).symm,
        (Nat.eq_of_mul_eq_mul_right hb e2).symm⟩
    by_cases hA : 2 * (a % b) < b
    · have hL : rheN a b = a / b := by unfold rheN; rw [if_pos hA]
      rw [hL, heq]
      exact rheN_ge c d
    · by_cases hD : 2 * (c % d) < d
      · exact absurd (key (by omega) (le_of_lt hD)).2 (by omega)
      · by_cases hE : d < 2 * (c % d)
        · have hR : rheN c d = c / d + 1 := by
            unfold rheN; rw [if_neg hD, if_pos hE]
          have hLle := rheN_le a b
          rw [heq] at hLle
          omega
        · have hkey := key (by omega) (by omega)
          have hL : rheN a b =
              if a / b % 2 = 0 then a / b else a / b + 1 := by
            unfold rheN; rw [if_neg hA, if_neg (by omega)]
          have hR : rheN c d =
              if c / d % 2 = 0 then c / d else c / d + 1 := by
            unfold rheN; rw [if_neg hD, if_neg hE]
          rw [hL, hR, heq]
  · calc rheN a b ≤ a / b + 1 := rheN_le a b
    _ ≤ c / d := hlt
    _ ≤ rheN c d := rheN_ge c d

theorem natdiv_cast_le (a b : ℕ) : ((a / b : ℕ) : ℚ) ≤ (a : ℚ) / b := by
  rcases Nat.eq_zero_or_pos b with hb | hb
  · subst hb; simp
  · exact Nat.cast_div_le

theorem rheN_cast_le {a b : ℕ} (hb : 0 < b) :
    (rheN a b : ℚ) ≤ (a : ℚ) / b + 1 := by
  have h := rheN_le a b
  have h2 := natdiv_cast_le a b
  have h3 : (rheN a b : ℚ) ≤ ((a / b : ℕ) : ℚ) + 1 := by exact_mod_cast h
  linarith

theorem rheN_window {A B : ℕ} (hB : 0 < B) {lo hi : ℕ}
    (hlo : (lo : ℚ) ≤ (A : ℚ) / B) (hhi : (A : ℚ) / B < (hi : ℚ)) :
    lo ≤ rheN A B ∧ rheN A B ≤ hi := by
  have hBq : (0 : ℚ) < (B : ℚ) := by exact_mod_cast hB
  have h1 : lo * B ≤ A := by
    have := (le_div_iff hBq).mp hlo
    exact_mod_cast this
  have h2 : A < hi * B := by
    have := (div_lt_iff hBq).mp hhi
    exact_mod_cast this
  constructor
  · calc lo ≤ A / B := by rw [Nat.le_div_iff_mul_le hB]; exact h1
    _ ≤ rheN A B := rheN_ge A B
  · have h3 : A / B < hi := by rw [Nat.div_lt_iff_lt_mul hB]; exact h2
    calc rheN A B ≤ A / B + 1 := rheN_le A B
    _ ≤ hi := by omega

theorem expP_bounds {p : PRat} (hp : goodP p) :
    (2 : ℚ) ^ expP p ≤ valP p ∧ valP p < (2 : ℚ) ^ (expP p + 1) := by
  obtain ⟨h1, h2, h3, h4⟩ := hp
  have hx1 : 1 ≤ p.1 * 2 ^ 200 / p.2 := by
    rw [Nat.le_div_iff_mul_le h2]
    simpa using h3
  have hx2 : p.1 * 2 ^ 200 / p.2 < 2 ^ 400 := by
    rw [Nat.div_lt_iff_lt_mul h2]
    calc p.1 * 2 ^ 200 < p.2 * 2 ^ 200 * 2 ^ 200 :=
      mul_lt_mul_of_pos_right h4 (by norm_num)
    _ = 2 ^ 400 * p.2 := by ring
  obtain ⟨hl, hr⟩ := log2fuel_correct 400 _ hx1 hx2
  have hp1q : (0 : ℚ) < (p.1 : ℚ) := by exact_mod_cast h1
  have hp2q : (0 : ℚ) < (p.2 : ℚ) := by exact_mod_cast h2
  constructor
  · have hnat : 2 ^ log2fuel 400 (p.1 * 2 ^ 200 / p.2) * p.2 ≤ p.1 * 2 ^ 200 :=
      (Nat.le_div_iff_mul_le h2).mp hl
    unfold expP valP
    rw [zpow_sub₀ (by norm_num : (2 : ℚ) ≠ 0), zpow_natCast,
      div_le_div_iff (by positivity) hp2q]
    calc (2 : ℚ) ^ log2fuel 400 (p.1 * 2 ^ 200 / p.2) * p.2 ≤
        ((p.1 : ℚ)) * 2 ^ 200 := by exact_mod_cast hnat
    _ = (p.1 : ℚ) * (2 : ℚ) ^ ((200 : ℤ)) := by norm_num
  · have hnat : p.1 * 2 ^ 200 <
        2 ^ (log2fuel 400 (p.1 * 2 ^ 200 / p.2) + 1) * p.2 :=
      (Nat.div_lt_iff_lt_mul h2).mp hr
    unfold expP valP
    have hexp : (log2fuel 400 (p.1 * 2 ^ 200 / p.2) : ℤ) - 200 + 1 =
        ((log2fuel 400 (p.1 * 2 ^ 200 / p.2) + 1 : ℕ) : ℤ) - 200 := by
      push_cast; ring
    rw [hexp, zpow_sub₀ (by norm_num : (2 : ℚ) ≠ 0), zpow_natCast,
      div_lt_div_iff hp2q (by positivity)]
    calc (p.1 : ℚ) * (2 : ℚ) ^ ((200 : ℤ)) = (p.1 : ℚ) * 2 ^ 200 := by norm_num
    _ < (2 : ℚ) ^ (log2fuel 400 (p.1 * 2 ^ 200 / p.2) + 1) * p.2 := by
      exact_mod_cast hnat

theorem mantP_eq_rheN (p : PRat) (h2 : 0 < p.2) :
    ∃ A B : ℕ, mantP p = rheN A B ∧ 0 < B ∧
      (A : ℚ) / (B : ℚ) = valP p * (2 : ℚ) ^ ((23 : ℤ) - expP p) := by
  have hp2q : (0 : ℚ) < (p.2 : ℚ) := by exact_mod_cast h2
  unfold mantP
  by_cases hs : 0 ≤ (23 : ℤ) - expP p
  · refine ⟨p.1 * 2 ^ ((23 : ℤ) - expP p).toNat, p.2, by rw [if_pos hs], h2, ?_⟩
    have h2s : (2 : ℚ) ^ ((23 : ℤ) - expP p) =
        (2 : ℚ) ^ ((23 : ℤ) - expP p).toNat := by
      rw [← zpow_natCast (2 : ℚ) ((23 : ℤ) - expP p).toNat,
        Int.toNat_of_nonneg hs]
    rw [h2s]
    unfold valP
    push_cast
    field_simp
  · refine ⟨p.1, p.2 * 2 ^ (-((23 : ℤ) - expP p)).toNat,
      by rw [if_neg hs], by positivity, ?_⟩
    have h2s : (2 : ℚ) ^ ((23 : ℤ) - expP p) =
        ((2 : ℚ) ^ (-((23 : ℤ) - expP p)).toNat)⁻¹ := by
      rw [← zpow_natCast (2 : ℚ) (-((23 : ℤ) - expP p)).toNat,
        Int.toNat_of_nonneg (by omega : 0 ≤ -((23 : ℤ) - expP p)),
        ← zpow_neg, neg_neg]
    rw [h2s]
    unfold valP
    push_cast
    field_simp

theorem mantP_window {p : PRat} (hp : goodP p) :
    2 ^ 23 ≤ mantP p ∧ mantP p ≤ 2 ^ 24 ∧
      (mantP p : ℚ) ≤ valP p * (2 : ℚ) ^ ((23 : ℤ) - expP p) + 1 := by
  obtain ⟨he1, he2⟩ := expP_bounds hp
  obtain ⟨h1, h2, h3, h4⟩ := hp
  obtain ⟨A, B, hAB, hBpos, hfrac⟩ := mantP_eq_rheN p h2
  have hq_lo : ((2 ^ 23 : ℕ) : ℚ) ≤ (A : ℚ) / B := by
    rw [hfrac]
    calc ((2 ^ 23 : ℕ) : ℚ) = (2 : ℚ) ^ (23 : ℤ) := by norm_num
    _ = (2 : ℚ) ^ expP p * (2 : ℚ) ^ ((23 : ℤ) - expP p) := by
      rw [← zpow_add₀ (by norm_num : (2 : ℚ) ≠ 0)]
      congr 1; ring
    _ ≤ valP p * (2 : ℚ) ^ ((23 : ℤ) - expP p) :=
      mul_le_mul_of_nonneg_right he1 (by positivity)
  have hq_hi : (A : ℚ) / B < ((2 ^ 24 : ℕ) : ℚ) := by
    rw [hfrac]
    calc valP p * (2 : ℚ) ^ ((23 : ℤ) - expP p) <
        (2 : ℚ) ^ (expP p + 1) * (2 : ℚ) ^ ((23 : ℤ) - expP p) :=
      mul_lt_mul_of_pos_right he2 (by positivity)
    _ = (2 : ℚ) ^ (24 : ℤ) := by
      rw [← zpow_add₀ (by norm_num : (2 : ℚ) ≠ 0)]
      congr 1; ring
    _ = ((2 ^ 24 : ℕ) : ℚ) := by norm_num
  obtain ⟨hw1, hw2⟩ := rheN_window hBpos hq_lo hq_hi
  refine ⟨by rw [hAB]; exact hw1, by rw [hAB]; exact hw2, ?_⟩
  rw [hAB, ← hfrac]
  exact rheN_cast_le hBpos

theorem valF_flP (p : PRat) :
    valF (flP p) = (mantP p : ℚ) * (2 : ℚ) ^ (expP p - 23) := rfl

theorem flP_ge_exp {p : PRat} (hp : goodP p) :
    (2 : ℚ) ^ expP p ≤ valF (flP p) := by
  obtain ⟨hm1, _, _⟩ := mantP_window hp
  have hsplit : (2 : ℚ) ^ expP p =
      (2 : ℚ) ^ (23 : ℤ) * (2 : ℚ) ^ (expP p - 23) := by
    rw [← zpow_add₀ (by norm_num : (2 : ℚ) ≠ 0)]
    congr 1
    ring
  have hc : (2 : ℚ) ^ (23 : ℤ) ≤ (mantP p : ℚ) := by
    calc (2 : ℚ) ^ (23 : ℤ) = ((2 ^ 23 : ℕ) : ℚ) := by norm_num
    _ ≤ (mantP p : ℚ) := by exact_mod_cast hm1
  rw [valF_flP, hsplit]
  exact mul_le_mul_of_nonneg_right hc (by positivity)

theorem flP_le_expSucc {p : PRat} (hp : goodP p) :
    valF (flP p) ≤ (2 : ℚ) ^ (expP p + 1) := by
  obtain ⟨_, hm2, _⟩ := mantP_window hp
  have hmerge : (2 : ℚ) ^ (24 : ℤ) * (2 : ℚ) ^ (expP p - 23) =
      (2 : ℚ) ^ (expP p + 1) := by
    rw [← zpow_add₀ (by norm_num : (2 : ℚ) ≠ 0)]
    congr 1
    ring
  have hc : (mantP p : ℚ) ≤ (2 : ℚ) ^ (24 : ℤ) := by
    calc (mantP p : ℚ) ≤ ((2 ^ 24 : ℕ) : ℚ) := by exact_mod_cast hm2
    _ = (2 : ℚ) ^ (24 : ℤ) := by norm_num
  rw [valF_flP, ← hmerge]
  exact mul_le_mul_of_nonneg_right hc (by positivity)

theorem flP_pos {p : PRat} (hp : goodP p) : 0 < valF (flP p) :=
  lt_of_lt_of_le (by positivity) (flP_ge_exp hp)

theorem flP_le {p : PRat} (hp : goodP p) :
    valF (flP p) ≤ valP p * (1 + (2 : ℚ) ^ (-23 : ℤ)) := by
  obtain ⟨he1, _⟩ := expP_bounds hp
  obtain ⟨_, _, hm3⟩ := mantP_window hp
  have hcancel : (2 : ℚ) ^ ((23 : ℤ) - expP p) * (2 : ℚ) ^ (expP p - 23) =
      1 := by
    rw [← zpow_add₀ (by norm_num : (2 : ℚ) ≠ 0)]
    norm_num
  have hstep : valF (flP p) ≤ valP p + (2 : ℚ) ^ (expP p - 23) := by
    rw [valF_flP]
    calc (mantP p : ℚ) * (2 : ℚ) ^ (expP p - 23) ≤
        (valP p * (2 : ℚ) ^ ((23 : ℤ) - expP p) + 1) *
          (2 : ℚ) ^ (expP p - 23) :=
      mul_le_mul_of_nonneg_right hm3 (by positivity)
    _ = valP p * ((2 : ℚ) ^ ((23 : ℤ) - expP p) * (2 : ℚ) ^ (expP p - 23)) +
        (2 : ℚ) ^ (expP p - 23) := by ring
    _ = valP p + (2 : ℚ) ^ (expP p - 23) := by rw [hcancel, mul_one]
  have hsplit23 : (2 : ℚ) ^ (expP p - 23) =
      (2 : ℚ) ^ expP p * (2 : ℚ) ^ (-23 : ℤ) := by
    rw [← zpow_add₀ (by norm_num : (2 : ℚ) ≠ 0)]
    congr 1
  have hsmall : (2 : ℚ) ^ (expP p - 23) ≤ valP p * (2 : ℚ) ^ (-23 : ℤ) := by
    rw [hsplit23]
    exact mul_le_mul_of_nonneg_right he1 (by positivity)
  calc valF (flP p) ≤ valP p + (2 : ℚ) ^ (expP p - 23) := hstep
  _ ≤ valP p + valP p * (2 : ℚ) ^ (-23 : ℤ) := by linarith
  _ = valP p * (1 + (2 : ℚ) ^ (-23 : ℤ)) := by ring

theorem flP_half {p : PRat} (hp : goodP p) :
    valP p ≤ 2 * valF (flP p) := by
  obtain ⟨_, he2⟩ := expP_bounds hp
  have hge := flP_ge_exp hp
  have h2 : (2 : ℚ) ^ (expP p + 1) = 2 * (2 : ℚ) ^ expP p := by
    rw [zpow_add₀ (by norm_num : (2 : ℚ) ≠ 0)]
    ring
  nlinarith [he2, hge]

theorem expP_mono {p q : PRat} (hp : goodP p) (hq : goodP q)
    (h : valP p ≤ valP q) : expP p ≤ expP q := by
  obtain ⟨hp1, hp2, hp3, hp4⟩ := hp
  obtain ⟨hq1, hq2, hq3, hq4⟩ := hq
  have hp2q : (0 : ℚ) < (p.2 : ℚ) := by exact_mod_cast hp2
  have hq2q : (0 : ℚ) < (q.2 : ℚ) := by exact_mod_cast hq2
  have hcross : p.1 * q.2 ≤ q.1 * p.2 := by
    have := (div_le_div_iff hp2q hq2q).mp h
    exact_mod_cast this
  have hargle : p.1 * 2 ^ 200 / p.2 ≤ q.1 * 2 ^ 200 / q.2 := by
    refine natdiv_mono_cross hp2 hq2 ?_
    calc p.1 * 2 ^ 200 * q.2 = p.1 * q.2 * 2 ^ 200 := by ring
    _ ≤ q.1 * p.2 * 2 ^ 200 := Nat.mul_le_mul_right _ hcross
    _ = q.1 * 2 ^ 200 * p.2 := by ring
  have hx1 : 1 ≤ p.1 * 2 ^ 200 / p.2 := by
    rw [Nat.le_div_iff_mul_le hp2]; simpa using hp3
  have hx2 : p.1 * 2 ^ 200 / p.2 < 2 ^ 400 := by
    rw [Nat.div_lt_iff_lt_mul hp2]
    calc p.1 * 2 ^ 200 < p.2 * 2 ^ 200 * 2 ^ 200 :=
      mul_lt_mul_of_pos_right hp4 (by norm_num)
    _ = 2 ^ 400 * p.2 := by ring
  have hy1 : 1 ≤ q.1 * 2 ^ 200 / q.2 := by
    rw [Nat.le_div_iff_mul_le hq2]; simpa using hq3
  have hy2 : q.1 * 2 ^ 200 / q.2 < 2 ^ 400 := by
    rw [Nat.div_lt_iff_lt_mul hq2]
    calc q.1 * 2 ^ 200 < q.2 * 2 ^ 200 * 2 ^ 200 :=
      mul_lt_mul_of_pos_right hq4 (by norm_num)
    _ = 2 ^ 400 * q.2 := by ring
  obtain ⟨hxl, _⟩ := log2fuel_correct 400 _ hx1 hx2
  obtain ⟨_, hyr⟩ := log2fuel_correct 400 _ hy1 hy2
  have hpow : 2 ^ log2fuel 400 (p.1 * 2 ^ 200 / p.2) <
      2 ^ (log2fuel 400 (q.1 * 2 ^ 200 / q.2) + 1) := by
    calc 2 ^ log2fuel 400 (p.1 * 2 ^ 200 / p.2) ≤ p.1 * 2 ^ 200 / p.2 := hxl
    _ ≤ q.1 * 2 ^ 200 / q.2 := hargle
    _ < 2 ^ (log2fuel 400 (q.1 * 2 ^ 200 / q.2) + 1) := hyr
  have hlog := (Nat.pow_lt_pow_iff_right (by norm_num : 1 < 2)).mp hpow
  unfold expP
  omega

theorem flP_mono {p q : PRat} (hp : goodP p) (hq : goodP q)
    (h : valP p ≤ valP q) : valF (flP p) ≤ valF (flP q) := by
  have he := expP_mono hp hq h
  rcases eq_or_lt_of_le he with heq | hlt
  · obtain ⟨A, B, hAB, hBpos, hfrac⟩ := mantP_eq_rheN p hp.2.1
    obtain ⟨C, D, hCD, hDpos, hgrac⟩ := mantP_eq_rheN q hq.2.1
    have hfr : (A : ℚ) / B ≤ (C : ℚ) / D := by
      rw [hfrac, hgrac, ← heq]
      exact mul_le_mul_of_nonneg_right h (by positivity)
    have hcross : A * D ≤ C * B := by
      have hBq : (0 : ℚ) < (B : ℚ) := by exact_mod_cast hBpos
      have hDq : (0 : ℚ) < (D : ℚ) := by exact_mod_cast hDpos
      have := (div_le_div_iff hBq hDq).mp hfr
      exact_mod_cast this
    have hmant : mantP p ≤ mantP q := by
      rw [hAB, hCD]; exact rheN_mono hBpos hDpos hcross
    rw [valF_flP, valF_flP, ← heq]
    exact mul_le_mul_of_nonneg_right (by exact_mod_cast hmant) (by positivity)
  · calc valF (flP p) ≤ (2 : ℚ) ^ (expP p + 1) := flP_le_expSucc hp
    _ ≤ (2 : ℚ) ^ expP q := by
      refine zpow_le_zpow_right₀ (by norm_num : (1 : ℚ) ≤ 2) (by omega)
    _ ≤ valF (flP q) := flP_ge_exp hq

theorem cast_div_lt_natdiv_succ (a b : ℕ) (hb : 0 < b) :
    (a : ℚ) / b < ((a / b : ℕ) : ℚ) + 1 := by
  have h2 : a < (a / b + 1) * b := by
    calc a = b * (a / b) + a % b := (Nat.div_add_mod a b).symm
    _ < b * (a / b) + b := Nat.add_lt_add_left (Nat.mod_lt a hb) _
    _ = (a / b + 1) * b := by ring
  rw [div_lt_iff (by exact_mod_cast hb : (0 : ℚ) < (b : ℚ))]
  calc (a : ℚ) < (((a / b + 1) * b : ℕ) : ℚ) := by exact_mod_cast h2
  _ = (((a / b : ℕ) : ℚ) + 1) * (b : ℚ) := by push_cast; ring

theorem floorF_le_val (x : F32) : (floorF x : ℚ) ≤ valF x := by
  unfold floorF valF
  by_cases hx : 23 ≤ x.2
  · rw [if_pos hx]
    have ht : ((x.2 - 23).toNat : ℤ) = x.2 - 23 :=
      Int.toNat_of_nonneg (by omega)
    have heq : ((x.1 * 2 ^ (x.2 - 23).toNat : ℕ) : ℚ) =
        (x.1 : ℚ) * (2 : ℚ) ^ (x.2 - 23) := by
      push_cast
      rw [← zpow_natCast (2 : ℚ) (x.2 - 23).toNat, ht]
    rw [heq]
  · rw [if_neg hx]
    have ht : ((23 - x.2).toNat : ℤ) = 23 - x.2 :=
      Int.toNat_of_nonneg (by omega)
    calc ((x.1 / 2 ^ (23 - x.2).toNat : ℕ) : ℚ) ≤
        (x.1 : ℚ) / ((2 ^ (23 - x.2).toNat : ℕ) : ℚ) := natdiv_cast_le _ _
    _ = (x.1 : ℚ) * (2 : ℚ) ^ (x.2 - 23) := by
      push_cast
      rw [← zpow_natCast (2 : ℚ) (23 - x.2).toNat, ht, div_eq_mul_inv,
        ← zpow_neg]
      congr 1
      ring

theorem floorF_lt_succ (x : F32) : valF x < (floorF x : ℚ) + 1 := by
  unfold floorF valF
  by_cases hx : 23 ≤ x.2
  · rw [if_pos hx]
    have ht : ((x.2 - 23).toNat : ℤ) = x.2 - 23 :=
      Int.toNat_of_nonneg (by omega)
    have heq : ((x.1 * 2 ^ (x.2 - 23).toNat : ℕ) : ℚ) =
        (x.1 : ℚ) * (2 : ℚ) ^ (x.2 - 23) := by
      push_cast
      rw [← zpow_natCast (2 : ℚ) (x.2 - 23).toNat, ht]
    rw [← heq]
    norm_num
  · rw [if_neg hx]
    have ht : ((23 - x.2).toNat : ℤ) = 23 - x.2 :=
      Int.toNat_of_nonneg (by omega)
    have hbpos : 0 < 2 ^ (23 - x.2).toNat := Nat.pos_pow_of_pos _ (by norm_num)
    have heq : (x.1 : ℚ) * (2 : ℚ) ^ (x.2 - 23) =
        (x.1 : ℚ) / ((2 ^ (23 - x.2).toNat : ℕ) : ℚ) := by
      push_cast
      rw [← zpow_natCast (2 : ℚ) (23 - x.2).toNat, ht, div_eq_mul_inv,
        ← zpow_neg]
      congr 1
      ring
    rw [heq]
    exact cast_div_lt_natdiv_succ _ _ hbpos

theorem floorF_mono {x y : F32} (h : valF x ≤ valF y) :
    floorF x ≤ floorF y := by
  have h1 := floorF_le_val x
  have h2 := floorF_lt_succ y
  have h3 : (floorF x : ℚ) < (floorF y : ℚ) + 1 := by linarith
  have h4 : floorF x < floorF y + 1 := by exact_mod_cast h3
  omega

theorem floorF_le_of_val_lt {x : F32} {n : ℕ} (h : valF x < (n : ℚ) + 1) :
    floorF x ≤ n := by
  have h1 := floorF_le_val x
  have h3 : (floorF x : ℚ) < (n : ℚ) + 1 := by linarith
  have h4 : floorF x < n + 1 := by exact_mod_cast h3
  omega

theorem toPRat_den_pos (x : F32) : 0 < (toPRat x).2 := by
  unfold toPRat
  by_cases hx : 23 ≤ x.2
  · rw [if_pos hx]
    exact Nat.one_pos
  · rw [if_neg hx]
    exact Nat.pos_pow_of_pos _ (by norm_num)

theorem toPRat_num_pos {x : F32} (hx : 0 < x.1) : 0 < (toPRat x).1 := by
  unfold toPRat
  by_cases h : 23 ≤ x.2
  · rw [if_pos h]
    exact Nat.mul_pos hx (Nat.pos_pow_of_pos _ (by norm_num))
  · rw [if_neg h]
    exact hx

theorem valP_toPRat (x : F32) : valP (toPRat x) = valF x := by
  unfold toPRat valP valF
  by_cases hx : 23 ≤ x.2
  · rw [if_pos hx]
    have ht : ((x.2 - 23).toNat : ℤ) = x.2 - 23 :=
      Int.toNat_of_nonneg (by omega)
    push_cast
    rw [← zpow_natCast (2 : ℚ) (x.2 - 23).toNat, ht]
    norm_num
  · rw [if_neg hx]
    have ht : ((23 - x.2).toNat : ℤ) = 23 - x.2 :=
      Int.toNat_of_nonneg (by omega)
    push_cast
    rw [← zpow_natCast (2 : ℚ) (23 - x.2).toNat, ht, div_eq_mul_inv,
      ← zpow_neg]
    congr 1
    ring

theorem valP_mulPairF (x y : F32) : valP (mulPairF x y) = valF x * valF y := by
  unfold mulPairF
  rw [← valP_toPRat x, ← valP_toPRat y]
  unfold valP
  push_cast
  rw [div_mul_div_comm]

theorem div_frac_eq (a b c d : ℕ) (hb : 0 < b) (hd : 0 < d) :
    ((a * d : ℕ) : ℚ) / ((b * c : ℕ) : ℚ) = ((a : ℚ) / b) / ((c : ℚ) / d) := by
  by_cases hc : c = 0
  · subst hc
    push_cast
    simp
  · have hbq : (b : ℚ) ≠ 0 := by exact_mod_cast hb.ne'
    have hdq : (d : ℚ) ≠ 0 := by exact_mod_cast hd.ne'
    have hcq : (c : ℚ) ≠ 0 := by exact_mod_cast hc
    push_cast
    field_simp

theorem valP_divPairF (x y : F32) : valP (divPairF x y) = valF x / valF y := by
  have key := div_frac_eq (toPRat x).1 (toPRat x).2 (toPRat y).1 (toPRat y).2
    (toPRat_den_pos x) (toPRat_den_pos y)
  rw [← valP_toPRat x, ← valP_toPRat y]
  unfold valP divPairF
  exact key

theorem goodP_of_val {p : PRat} (h1 : 0 < p.1) (h2 : 0 < p.2)
    (hlo : (2 : ℚ) ^ (-200 : ℤ) ≤ valP p)
    (hhi : valP p < (2 : ℚ) ^ (200 : ℤ)) : goodP p := by
  have hp2q : (0 : ℚ) < (p.2 : ℚ) := by exact_mod_cast h2
  refine ⟨h1, h2, ?_, ?_⟩
  · have hm := (le_div_iff hp2q).mp hlo
    have hq : (p.2 : ℚ) ≤ (p.1 : ℚ) * 2 ^ 200 := by
      have h200 : (2 : ℚ) ^ (-200 : ℤ) * (2 : ℚ) ^ (200 : ℤ) = 1 := by
        rw [← zpow_add₀ (by norm_num : (2 : ℚ) ≠ 0)]
        norm_num
      nlinarith [hm]
    exact_mod_cast hq
  · have hm := (div_lt_iff hp2q).mp hhi
    have hq : (p.1 : ℚ) < (p.2 : ℚ) * 2 ^ 200 := by
      calc (p.1 : ℚ) < (2 : ℚ) ^ (200 : ℤ) * (p.2 : ℚ) := hm
      _ = (p.2 : ℚ) * 2 ^ 200 := by norm_num [mul_comm]
    exact_mod_cast hq

theorem rheN_zero (d : ℕ) : rheN 0 d = 0 := by
  unfold rheN
  simp only [Nat.zero_mod, Nat.zero_div, Nat.mul_zero]
  split_ifs <;> omega

theorem flP_zero (d : ℕ) : flP ((0 : ℕ), d) = (0, -200) := by
  have harg : (0 : ℕ) * 2 ^ 200 / d = 0 := by simp
  have hexp : expP ((0 : ℕ), d) = -200 := by
    unfold expP
    rw [show ((0 : ℕ), d).1 = 0 from rfl]
    rw [harg, show log2fuel 400 0 = 0 from rfl]
    norm_num
  have hmant : mantP ((0 : ℕ), d) = 0 := by
    unfold mantP
    rw [hexp]
    norm_num [rheN_zero]
  unfold flP
  rw [hmant, hexp]

theorem toPRat_zero : toPRat ((0 : ℕ), (-200 : ℤ)) = (0, 2 ^ 223) := by
  decide

theorem percentF32_zero (m : ℕ) : percentF32 m 0 = 0 := by
  unfold percentF32 fmulP mulPairF
  rw [flP_zero 1, toPRat_zero]
  rw [show ((0 : ℕ), (2 ^ 223 : ℕ)).1 = 0 from rfl, Nat.mul_zero]
  rw [flP_zero]
  unfold floorF
  norm_num

theorem goodP_nat1 {m : ℕ} (h1 : 0 < m) (h64 : m < 2 ^ 64) :
    goodP (m, 1) := by
  refine ⟨h1, Nat.one_pos, ?_, ?_⟩
  · calc (m, 1).2 = 1 := rfl
    _ ≤ m := h1
    _ ≤ m * 2 ^ 200 := Nat.le_mul_of_pos_right m (by positivity)
  · calc (m, 1).1 = m := rfl
    _ < 2 ^ 64 := h64
    _ ≤ 1 * 2 ^ 200 := by norm_num

theorem valP_nat1 (m : ℕ) : valP (m, 1) = (m : ℚ) := by
  unfold valP
  norm_num

set_option maxRecDepth 100000 in
theorem flP_100_eq : flP ((100 : ℕ), 1) = (13107200, 6) := by decide

theorem valF_100 : valF (flP ((100 : ℕ), 1)) = 100 := by
  rw [flP_100_eq]
  unfold valF
  norm_num

theorem flP_num_pos {p : PRat} (hp : goodP p) : 0 < (flP p).1 := by
  have h := (mantP_window hp).1
  have heq : (flP p).1 = mantP p := rfl
  rw [heq]
  positivity

theorem fm_bounds {m : ℕ} (hm : 0 < m) (hm64 : m < 2 ^ 64) :
    (1 : ℚ) / 2 ≤ valF (flP (m, 1)) ∧ valF (flP (m, 1)) ≤ 2 ^ 65 ∧
      valF (flP (m, 1)) ≤ (m : ℚ) * (1 + (2 : ℚ) ^ (-23 : ℤ)) := by
  have hgm : goodP (m, 1) := goodP_nat1 hm hm64
  have hle : valF (flP (m, 1)) ≤ (m : ℚ) * (1 + (2 : ℚ) ^ (-23 : ℤ)) := by
    have h := flP_le hgm
    rwa [valP_nat1] at h
  have hhalf : (m : ℚ) ≤ 2 * valF (flP (m, 1)) := by
    have h := flP_half hgm
    rwa [valP_nat1] at h
  have hm1 : (1 : ℚ) ≤ (m : ℚ) := by exact_mod_cast hm
  have hm2 : (m : ℚ) ≤ 2 ^ 64 := by
    have h : (m : ℚ) < ((2 ^ 64 : ℕ) : ℚ) := by exact_mod_cast hm64
    push_cast at h
    linarith
  have hεle : (2 : ℚ) ^ (-23 : ℤ) ≤ 1 := by norm_num
  have hεpos : (0 : ℚ) ≤ (2 : ℚ) ^ (-23 : ℤ) := by positivity
  refine ⟨by linarith, ?_, hle⟩
  calc valF (flP (m, 1)) ≤ (m : ℚ) * (1 + (2 : ℚ) ^ (-23 : ℤ)) := hle
  _ ≤ 2 ^ 64 * 2 := by nlinarith
  _ ≤ 2 ^ 65 := by norm_num

theorem c_bounds {m : ℕ} (hm : 0 < m) (hm64 : m < 2 ^ 64) :
    goodP (divPairF (flP ((100 : ℕ), 1)) (flP (m, 1))) ∧
      (50 : ℚ) / 2 ^ 65 ≤ valF (fdivP (flP ((100 : ℕ), 1)) (flP (m, 1))) ∧
      valF (fdivP (flP ((100 : ℕ), 1)) (flP (m, 1))) * valF (flP (m, 1)) ≤
        100 * (1 + (2 : ℚ) ^ (-23 : ℤ)) := by
  have hgm : goodP (m, 1) := goodP_nat1 hm hm64
  have hg100 : goodP ((100 : ℕ), 1) := goodP_nat1 (by norm_num) (by norm_num)
  obtain ⟨hfm_lb, hfm_ub, _⟩ := fm_bounds hm hm64
  have hfm_pos : 0 < valF (flP (m, 1)) := flP_pos hgm
  have hdp_val : valP (divPairF (flP ((100 : ℕ), 1)) (flP (m, 1))) =
      100 / valF (flP (m, 1)) := by
    rw [valP_divPairF, valF_100]
  have hgdp : goodP (divPairF (flP ((100 : ℕ), 1)) (flP (m, 1))) := by
    refine goodP_of_val ?_ ?_ ?_ ?_
    · exact Nat.mul_pos (toPRat_num_pos (flP_num_pos hg100)) (toPRat_den_pos _)
    · exact Nat.mul_pos (toPRat_den_pos _) (toPRat_num_pos (flP_num_pos hgm))
    · rw [hdp_val, le_div_iff hfm_pos]
      calc (2 : ℚ) ^ (-200 : ℤ) * valF (flP (m, 1)) ≤
          (2 : ℚ) ^ (-200 : ℤ) * 2 ^ 65 :=
        mul_le_mul_of_nonneg_left hfm_ub (by positivity)
      _ ≤ 100 := by norm_num
    · rw [hdp_val, div_lt_iff hfm_pos]
      have hs : (100 : ℚ) < 2 ^ (200 : ℤ) * (1 / 2) := by norm_num
      have hs2 : (2 : ℚ) ^ (200 : ℤ) * (1 / 2) ≤
          2 ^ (200 : ℤ) * valF (flP (m, 1)) :=
        mul_le_mul_of_nonneg_left hfm_lb (by positivity)
      linarith
  have hdef : fdivP (flP ((100 : ℕ), 1)) (flP (m, 1)) =
      flP (divPairF (flP ((100 : ℕ), 1)) (flP (m, 1))) := rfl
  have hc_half := flP_half hgdp
  rw [hdp_val] at hc_half
  have hc_lb : (50 : ℚ) / 2 ^ 65 ≤
      valF (fdivP (flP ((100 : ℕ), 1)) (flP (m, 1))) := by
    rw [hdef]
    have h1 : (100 : ℚ) / 2 ^ 65 ≤ 100 / valF (flP (m, 1)) :=
      div_le_div_of_nonneg_left (by norm_num) hfm_pos hfm_ub
    have h2 : (50 : ℚ) / 2 ^ 65 = 100 / 2 ^ 65 / 2 := by norm_num
    linarith
  have hc_le := flP_le hgdp
  rw [hdp_val] at hc_le
  have hcancel : 100 / valF (flP (m, 1)) * valF (flP (m, 1)) = 100 :=
    div_mul_cancel₀ 100 hfm_pos.ne'
  have hprod : valF (fdivP (flP ((100 : ℕ), 1)) (flP (m, 1))) *
      valF (flP (m, 1)) ≤ 100 * (1 + (2 : ℚ) ^ (-23 : ℤ)) := by
    rw [hdef]
    calc valF (flP (divPairF (flP ((100 : ℕ), 1)) (flP (m, 1)))) *
        valF (flP (m, 1)) ≤
        100 / valF (flP (m, 1)) * (1 + (2 : ℚ) ^ (-23 : ℤ)) *
          valF (flP (m, 1)) :=
      mul_le_mul_of_nonneg_right hc_le (le_of_lt hfm_pos)
    _ = 100 / valF (flP (m, 1)) * valF (flP (m, 1)) *
        (1 + (2 : ℚ) ^ (-23 : ℤ)) := by ring
    _ = 100 * (1 + (2 : ℚ) ^ (-23 : ℤ)) := by rw [hcancel]
  exact ⟨hgdp, hc_lb, hprod⟩

theorem prod_good {m w : ℕ} (hm : 0 < m) (hm64 : m < 2 ^ 64) (hw : 0 < w)
    (hwm : w ≤ m) :
    goodP (mulPairF (fdivP (flP ((100 : ℕ), 1)) (flP (m, 1)))
      (flP (w, 1))) := by
  obtain ⟨hgdp, hc_lb, hprod⟩ := c_bounds hm hm64
  have hgm : goodP (m, 1) := goodP_nat1 hm hm64
  have hgw : goodP (w, 1) := goodP_nat1 hw (lt_of_le_of_lt hwm hm64)
  have hfw_pos : 0 < valF (flP (w, 1)) := flP_pos hgw
  have hfw_half : (w : ℚ) ≤ 2 * valF (flP (w, 1)) := by
    have h := flP_half hgw
    rwa [valP_nat1] at h
  have hw1 : (1 : ℚ) ≤ (w : ℚ) := by exact_mod_cast hw
  have hfw_lb : (1 : ℚ) / 2 ≤ valF (flP (w, 1)) := by linarith
  have hc_pos : (0 : ℚ) <
      valF (fdivP (flP ((100 : ℕ), 1)) (flP (m, 1))) := by
    have h50 : (0 : ℚ) < 50 / 2 ^ 65 := by norm_num
    linarith
  have hfw_le : valF (flP (w, 1)) ≤ valF (flP (m, 1)) := by
    refine flP_mono hgw hgm ?_
    rw [valP_nat1, valP_nat1]
    exact_mod_cast hwm
  have hval : valP (mulPairF (fdivP (flP ((100 : ℕ), 1)) (flP (m, 1)))
      (flP (w, 1))) =
      valF (fdivP (flP ((100 : ℕ), 1)) (flP (m, 1))) * valF (flP (w, 1)) :=
    valP_mulPairF _ _
  refine goodP_of_val ?_ ?_ ?_ ?_
  · exact Nat.mul_pos (toPRat_num_pos (flP_num_pos hgdp))
      (toPRat_num_pos (flP_num_pos hgw))
  · exact Nat.mul_pos (toPRat_den_pos _) (toPRat_den_pos _)
  · rw [hval]
    calc (2 : ℚ) ^ (-200 : ℤ) ≤ 50 / 2 ^ 65 * (1 / 2) := by norm_num
    _ ≤ valF (fdivP (flP ((100 : ℕ), 1)) (flP (m, 1))) *
        valF (flP (w, 1)) :=
      mul_le_mul hc_lb hfw_lb (by norm_num) (le_of_lt hc_pos)
  · rw [hval]
    calc valF (fdivP (flP ((100 : ℕ), 1)) (flP (m, 1))) *
        valF (flP (w, 1)) ≤
        valF (fdivP (flP ((100 : ℕ), 1)) (flP (m, 1))) *
          valF (flP (m, 1)) :=
      mul_le_mul_of_nonneg_left hfw_le (le_of_lt hc_pos)
    _ ≤ 100 * (1 + (2 : ℚ) ^ (-23 : ℤ)) := hprod
    _ < 2 ^ (200 : ℤ) := by norm_num

/-- C5 (amended): for `0 < mappedBlocks < 2^64` and
`blocksWritten ≤ mappedBlocks`, the single-precision
`Progress::percent` never exceeds `100` — but it is a float
computation, not the exact integer `floor(100 * written / mapped)`
(see the counterexample at `mapped = written = 97`). -/
theorem percentF32_le_100 (m w : ℕ) (hm : 0 < m) (hm64 : m < 2 ^ 64)
    (hwm : w ≤ m) : percentF32 m w ≤ 100 := by
  rcases Nat.eq_zero_or_pos w with hw0 | hwpos
  · subst hw0
    rw [percentF32_zero]
    norm_num
  · obtain ⟨hgdp, hc_lb, hprod⟩ := c_bounds hm hm64
    have hgmp := prod_good hm hm64 hwpos hwm
    have hgw : goodP (w, 1) := goodP_nat1 hwpos (lt_of_le_of_lt hwm hm64)
    have hgm : goodP (m, 1) := goodP_nat1 hm hm64
    have hc_pos : (0 : ℚ) <
        valF (fdivP (flP ((100 : ℕ), 1)) (flP (m, 1))) := by
      have h50 : (0 : ℚ) < 50 / 2 ^ 65 := by norm_num
      linarith
    have hfw_le : valF (flP (w, 1)) ≤ valF (flP (m, 1)) := by
      refine flP_mono hgw hgm ?_
      rw [valP_nat1, valP_nat1]
      exact_mod_cast hwm
    have hub : valF (fdivP (flP ((100 : ℕ), 1)) (flP (m, 1))) *
        valF (flP (w, 1)) ≤ 100 * (1 + (2 : ℚ) ^ (-23 : ℤ)) := by
      calc valF (fdivP (flP ((100 : ℕ), 1)) (flP (m, 1))) *
          valF (flP (w, 1)) ≤
          valF (fdivP (flP ((100 : ℕ), 1)) (flP (m, 1))) *
            valF (flP (m, 1)) :=
        mul_le_mul_of_nonneg_left hfw_le (le_of_lt hc_pos)
      _ ≤ 100 * (1 + (2 : ℚ) ^ (-23 : ℤ)) := hprod
    have hfin := flP_le hgmp
    rw [valP_mulPairF] at hfin
    have hfin2 : valF (fmulP (fdivP (flP ((100 : ℕ), 1)) (flP (m, 1)))
        (flP (w, 1))) ≤
        100 * (1 + (2 : ℚ) ^ (-23 : ℤ)) * (1 + (2 : ℚ) ^ (-23 : ℤ)) := by
      calc valF (fmulP (fdivP (flP ((100 : ℕ), 1)) (flP (m, 1)))
          (flP (w, 1))) ≤
          valF (fdivP (flP ((100 : ℕ), 1)) (flP (m, 1))) *
            valF (flP (w, 1)) * (1 + (2 : ℚ) ^ (-23 : ℤ)) := hfin
      _ ≤ 100 * (1 + (2 : ℚ) ^ (-23 : ℤ)) * (1 + (2 : ℚ) ^ (-23 : ℤ)) :=
        mul_le_mul_of_nonneg_right hub (by positivity)
    have hlt : 100 * (1 + (2 : ℚ) ^ (-23 : ℤ)) *
        (1 + (2 : ℚ) ^ (-23 : ℤ)) < 101 := by norm_num
    unfold percentF32
    refine floorF_le_of_val_lt ?_
    have h101 : ((100 : ℕ) : ℚ) + 1 = 101 := by norm_num
    rw [h101]
    linarith

/-- Monotonicity of the single-precision percentage in the written
count, for a fixed mapped total. -/
theorem percentF32_mono {m w v : ℕ} (hm : 0 < m) (hm64 : m < 2 ^ 64)
    (hwv : w ≤ v) (hvm : v ≤ m) : percentF32 m w ≤ percentF32 m v := by
  rcases Nat.eq_zero_or_pos w with hw0 | hwpos
  · subst hw0
    rw [percentF32_zero]
    exact Nat.zero_le _
  · have hvpos : 0 < v := lt_of_lt_of_le hwpos hwv
    have hgw : goodP (w, 1) :=
      goodP_nat1 hwpos (lt_of_le_of_lt (le_trans hwv hvm) hm64)
    have hgv : goodP (v, 1) := goodP_nat1 hvpos (lt_of_le_of_lt hvm hm64)
    have hgmpw := prod_good hm hm64 hwpos (le_trans hwv hvm)
    have hgmpv := prod_good hm hm64 hvpos hvm
    obtain ⟨_, hc_lb, _⟩ := c_bounds hm hm64
    have hc_pos : (0 : ℚ) ≤
        valF (fdivP (flP ((100 : ℕ), 1)) (flP (m, 1))) := by
      have h50 : (0 : ℚ) < 50 / 2 ^ 65 := by norm_num
      linarith
    have hfwv : valF (flP (w, 1)) ≤ valF (flP (v, 1)) := by
      refine flP_mono hgw hgv ?_
      rw [valP_nat1, valP_nat1]
      exact_mod_cast hwv
    have hmono : valP (mulPairF (fdivP (flP ((100 : ℕ), 1)) (flP (m, 1)))
        (flP (w, 1))) ≤
        valP (mulPairF (fdivP (flP ((100 : ℕ), 1)) (flP (m, 1)))
          (flP (v, 1))) := by
      rw [valP_mulPairF, valP_mulPairF]
      exact mul_le_mul_of_nonneg_left hfwv hc_pos
    have hval := flP_mono hgmpw hgmpv hmono
    unfold percentF32
    exact floorF_mono hval

/-! ### Copy-engine lemmas -/

theorem chunkLoop_maxB_zero (bs mapped : ℕ) (src : ℕ → ℕ) (hasCb : Bool) :
    ∀ fuel c st, c ≠ 0 →
      chunkLoop bs 0 mapped src hasCb fuel c st = none := by
  intro fuel
  induction fuel with
  | zero => intro c st hc; simp [chunkLoop, hc]
  | succ f ih =>
    intro c st hc
    simp only [chunkLoop, if_neg hc]
    rw [Nat.zero_min, Nat.sub_zero]
    exact ih c _ hc

theorem chunkStep_cbOk (bs mapped : ℕ) (src : ℕ → ℕ) (rb : ℕ)
    (st : CopyState) (h : cbOk mapped st) :
    cbOk mapped (chunkStep bs mapped src true rb st) := by
  have hcs : (chunkStep bs mapped src true rb st).callbacks =
      ⟨mapped, st.blocksWritten + rb⟩ :: st.callbacks := rfl
  have hbw : (chunkStep bs mapped src true rb st).blocksWritten =
      st.blocksWritten + rb := rfl
  constructor
  · intro p hp
    rw [hcs] at hp
    rcases List.mem_cons.mp hp with hpe | hpo
    · subst hpe
      exact ⟨rfl, le_of_eq hbw.symm⟩
    · obtain ⟨h1, h2⟩ := h.1 p hpo
      rw [hbw]
      exact ⟨h1, by omega⟩
  · rw [hcs]
    cases hold : st.callbacks with
    | nil => simp
    | cons q rest =>
      rw [List.chain'_cons]
      constructor
      · have hq := (h.1 q (by rw [hold]; exact List.mem_cons_self q rest)).2
        show q.blocksWritten ≤ st.blocksWritten + rb
        omega
      · rw [← hold]
        exact h.2

theorem chunkLoop_bw_cb (bs maxB mapped : ℕ) (src : ℕ → ℕ) :
    ∀ fuel c st st2,
      chunkLoop bs maxB mapped src true fuel c st = some st2 →
      st2.blocksWritten = st.blocksWritten + c ∧
      (cbOk mapped st → cbOk mapped st2) := by
  intro fuel
  induction fuel with
  | zero =>
    intro c st st2 h
    by_cases hc : c = 0
    · subst hc
      simp [chunkLoop] at h
      subst h
      exact ⟨by omega, id⟩
    · simp [chunkLoop, hc] at h
  | succ f ih =>
    intro c st st2 h
    by_cases hc : c = 0
    · subst hc
      simp [chunkLoop] at h
      subst h
      exact ⟨by omega, id⟩
    · simp only [chunkLoop, if_neg hc] at h
      obtain ⟨hbw, hcb⟩ := ih _ _ _ h
      have hstep : (chunkStep bs mapped src true (min maxB c) st).blocksWritten
          = st.blocksWritten + min maxB c := rfl
      constructor
      · rw [hbw, hstep]
        omega
      · intro hok
        exact hcb (chunkStep_cbOk bs mapped src _ st hok)

theorem foldl_rangeStep_none (bs maxB mapped : ℕ) (src : ℕ → ℕ)
    (hasCb : Bool) :
    ∀ rs : List Range,
      List.foldl (rangeStep bs maxB mapped src hasCb) none rs = none := by
  intro rs
  induction rs with
  | nil => rfl
  | cons r rest ih =>
    rw [List.foldl_cons, show rangeStep bs maxB mapped src hasCb none r =
      none from rfl]
    exact ih

theorem foldl_rangeStep_inv (bs maxB mapped : ℕ) (src : ℕ → ℕ) :
    ∀ (rs : List Range) (st st2 : CopyState),
      List.foldl (rangeStep bs maxB mapped src true) (some st) rs =
        some st2 →
      st2.blocksWritten = st.blocksWritten + sumBlocks rs ∧
      (cbOk mapped st → cbOk mapped st2) := by
  intro rs
  induction rs with
  | nil =>
    intro st st2 h
    simp only [List.foldl_nil, Option.some_inj] at h
    subst h
    exact ⟨by simp [sumBlocks], id⟩
  | cons r rest ih =>
    intro st st2 h
    rw [List.foldl_cons] at h
    rcases hmid : rangeStep bs maxB mapped src true (some st) r with _ | stm
    · rw [hmid, foldl_rangeStep_none] at h
      cases h
    · rw [hmid] at h
      obtain ⟨hbw2, hcb2⟩ := ih stm st2 h
      by_cases hoff : r.offset > st.blocksWritten
      · have hmid2 : chunkLoop bs maxB mapped src true r.blockCount
            r.blockCount
            { st with
                srcPos := st.srcPos + (r.offset - st.blocksWritten)
                dstPos := st.dstPos + (r.offset - st.blocksWritten) } =
            some stm := by
          simpa [rangeStep, hoff] using hmid
        obtain ⟨hbwc, hcbc⟩ := chunkLoop_bw_cb bs maxB mapped src _ _ _ _ hmid2
        have hred : ({ st with
            srcPos := st.srcPos + (r.offset - st.blocksWritten)
            dstPos := st.dstPos + (r.offset - st.blocksWritten) } :
            CopyState).blocksWritten = st.blocksWritten := rfl
        rw [hred] at hbwc
        constructor
        · rw [hbw2, hbwc]
          show _ = st.blocksWritten + sumBlocks (r :: rest)
          rw [show sumBlocks (r :: rest) = r.blockCount + sumBlocks rest
            from rfl]
          omega
        · intro hok
          refine hcb2 (hcbc ?_)
          exact hok
      · have hmid2 : chunkLoop bs maxB mapped src true r.blockCount
            r.blockCount st = some stm := by
          simpa [rangeStep, hoff] using hmid
        obtain ⟨hbwc, hcbc⟩ := chunkLoop_bw_cb bs maxB mapped src _ _ _ _ hmid2
        constructor
        · rw [hbw2, hbwc]
          show _ = st.blocksWritten + sumBlocks (r :: rest)
          rw [show sumBlocks (r :: rest) = r.blockCount + sumBlocks rest
            from rfl]
          omega
        · intro hok
          exact hcb2 (hcbc hok)

theorem chunkLoop_total (bs maxB mapped : ℕ) (src : ℕ → ℕ)
    (hmaxB : 0 < maxB) :
    ∀ fuel c st, c ≤ fuel →
      ∃ st2,
        chunkLoop bs maxB mapped src true fuel c st = some st2 ∧
        st2.blocksWritten = st.blocksWritten + c ∧
        st2.srcPos = st.srcPos + c * bs ∧
        st2.dstPos = st.dstPos + c * bs ∧
        (∃ k, st2.reads.length = k + st.reads.length ∧
          st2.writes.length = k + st.writes.length ∧
          st2.callbacks.length = k + st.callbacks.length) ∧
        (∀ pr ∈ st2.reads, pr ∈ st.reads ∨
          ∃ n, 1 ≤ n ∧ n ≤ maxB ∧ pr.2 = n * bs) ∧
        (∀ pr ∈ st2.writes, pr ∈ st.writes ∨
          ∃ n, 1 ≤ n ∧ n ≤ maxB ∧ pr.2 = n * bs) ∧
        (∀ p ∈ st2.callbacks, p ∈ st.callbacks ∨
          (p.mappedBlocks = mapped ∧
            p.blocksWritten ≤ st.blocksWritten + c)) := by
  intro fuel
  induction fuel with
  | zero =>
    intro c st hc
    have hc0 : c = 0 := Nat.le_zero.mp hc
    subst hc0
    exact ⟨st, by simp [chunkLoop], by omega, by omega, by omega,
      ⟨0, by omega, by omega, by omega⟩,
      fun pr hpr => Or.inl hpr, fun pr hpr => Or.inl hpr,
      fun p hp => Or.inl hp⟩
  | succ f ih =>
    intro c st hc
    by_cases hc0 : c = 0
    · subst hc0
      exact ⟨st, by simp [chunkLoop], by omega, by omega, by omega,
        ⟨0, by omega, by omega, by omega⟩,
        fun pr hpr => Or.inl hpr, fun pr hpr => Or.inl hpr,
        fun p hp => Or.inl hp⟩
    · have hrb1 : 1 ≤ min maxB c := by omega
      have hrbc : min maxB c ≤ c := Nat.min_le_right maxB c
      have hrbm : min maxB c ≤ maxB := Nat.min_le_left maxB c
      obtain ⟨st2, hrun, hbw, hsrc, hdst, ⟨k, hkr, hkw, hkc⟩,
          hreads, hwrites, hcbs⟩ :=
        ih (c - min maxB c) (chunkStep bs mapped src true (min maxB c) st)
          (by omega)
      have hsbw : (chunkStep bs mapped src true (min maxB c) st).blocksWritten
          = st.blocksWritten + min maxB c := rfl
      have hssrc : (chunkStep bs mapped src true (min maxB c) st).srcPos
          = st.srcPos + min maxB c * bs := rfl
      have hsdst : (chunkStep bs mapped src true (min maxB c) st).dstPos
          = st.dstPos + min maxB c * bs := rfl
      have hsreads : (chunkStep bs mapped src true (min maxB c) st).reads
          = (st.srcPos, min maxB c * bs) :: st.reads := rfl
      have hswrites : (chunkStep bs mapped src true (min maxB c) st).writes
          = (st.dstPos, min maxB c * bs) :: st.writes := rfl
      have hscbs : (chunkStep bs mapped src true (min maxB c) st).callbacks
          = ⟨mapped, st.blocksWritten + min maxB c⟩ :: st.callbacks := rfl
      have hsplit : min maxB c * bs + (c - min maxB c) * bs = c * bs := by
        rw [← Nat.add_mul]
        congr 1
        omega
      refine ⟨st2, ?_, ?_, ?_, ?_, ⟨k + 1, ?_, ?_, ?_⟩, ?_, ?_, ?_⟩
      · simp only [chunkLoop, if_neg hc0]
        exact hrun
      · rw [hbw, hsbw]
        omega
      · rw [hsrc, hssrc, add_assoc, hsplit]
      · rw [hdst, hsdst, add_assoc, hsplit]
      · rw [hkr, hsreads, List.length_cons]
        omega
      · rw [hkw, hswrites, List.length_cons]
        omega
      · rw [hkc, hscbs, List.length_cons]
        omega
      · intro pr hpr
        rcases hreads pr hpr with hin | hex
        · rw [hsreads] at hin
          rcases List.mem_cons.mp hin with hpe | hpo
          · subst hpe
            exact Or.inr ⟨min maxB c, hrb1, hrbm, rfl⟩
          · exact Or.inl hpo
        · exact Or.inr hex
      · intro pr hpr
        rcases hwrites pr hpr with hin | hex
        · rw [hswrites] at hin
          rcases List.mem_cons.mp hin with hpe | hpo
          · subst hpe
            exact Or.inr ⟨min maxB c, hrb1, hrbm, rfl⟩
          · exact Or.inl hpo
        · exact Or.inr hex
      · intro p hp
        rcases hcbs p hp with hin | ⟨hmp, hbp⟩
        · rw [hscbs] at hin
          rcases List.mem_cons.mp hin with hpe | hpo
          · subst hpe
            refine Or.inr ⟨rfl, ?_⟩
            show st.blocksWritten + min maxB c ≤ st.blocksWritten + c
            omega
          · exact Or.inl hpo
        · rw [hsbw] at hbp
          exact Or.inr ⟨hmp, by omega⟩

theorem copyRanges_inv (b : BmapFile) (src : ℕ → ℕ) (st2 : CopyState)
    (h : copyRanges b src true = some st2) :
    st2.blocksWritten = sumBlocks b.blockMap ∧
      cbOk b.mappedBlocksCount st2 := by
  obtain ⟨h1, h2⟩ :=
    foldl_rangeStep_inv b.blockSize (bufferMaxBlocks b.blockSize)
      b.mappedBlocksCount src b.blockMap initState st2 h
  refine ⟨by simpa [initState] using h1, h2 ?_⟩
  exact ⟨fun p hp => absurd hp (by simp [initState]), by simp [initState]⟩

theorem chain_percent_of_bw (mapped total : ℕ) (hm : 0 < mapped)
    (hm64 : mapped < 2 ^ 64) (htot : total ≤ mapped) :
    ∀ l : List Progress,
      (∀ p ∈ l, p.mappedBlocks = mapped ∧ p.blocksWritten ≤ total) →
      l.Chain' (fun a b => b.blocksWritten ≤ a.blocksWritten) →
      (l.reverse.map Progress.percent).Chain' (· ≤ ·) := by
  intro l hmem hch
  rw [List.chain'_map, List.chain'_reverse]
  induction l with
  | nil => simp
  | cons p rest ihl =>
    cases rest with
    | nil => simp
    | cons q rest2 =>
      rw [List.chain'_cons] at hch ⊢
      obtain ⟨hpq, hch2⟩ := hch
      refine ⟨?_, ihl (fun x hx => hmem x (List.mem_cons_of_mem p hx)) hch2⟩
      show Progress.percent q ≤ Progress.percent p
      obtain ⟨hpm, hpw⟩ := hmem p (List.mem_cons_self p _)
      obtain ⟨hqm, hqw⟩ := hmem q (List.mem_cons_of_mem p
        (List.mem_cons_self q _))
      unfold Progress.percent
      rw [hpm, hqm]
      exact percentF32_mono hm hm64 hpq (le_trans hpw htot)

/-! ### Claim theorems about `Progress::percent` and the copy engine -/

set_option maxRecDepth 100000 in
/-- Counterexample to C5: at `mappedBlocks = blocksWritten = 97` the
float computation `uint8_t(100.0f / 97.0f * 97.0f)` returns `99`,
while the exact integer `floor(100 * 97 / 97)` is `100` — `percent()`
is not computed in exact integer arithmetic. -/
theorem percent_ne_exact_floor :
    percentF32 97 97 = 99 ∧ 100 * 97 / 97 = 100 ∧ 0 < 97 ∧ 97 ≤ 97 := by
  decide

/-- Witness for `percentF32_le_100` at `mapped = 10`, `written = 5`. -/
theorem percentF32_le_100_witness : percentF32 10 5 ≤ 100 :=
  percentF32_le_100 10 5 (by norm_num) (by norm_num) (by norm_num)

set_option maxRecDepth 100000 in
/-- Counterexample to C6: at `mappedBlocks = 2^25` the written count
`2^25 - 1` already reports `100` percent — `(float)(2^25 - 1)` rounds
up to `2^25`, so `percent() = 100` does not imply
`blocksWritten = mappedBlocks`. -/
theorem percent_hundred_before_completion :
    percentF32 (2 ^ 25) (2 ^ 25 - 1) = 100 ∧ 2 ^ 25 - 1 ≤ 2 ^ 25 ∧
      (2 ^ 25 - 1 : ℕ) ≠ 2 ^ 25 := by
  decide

/-- C6 (amended): across the progress callbacks of one copy run over a
descriptor with `0 < mappedBlocksCount < 2^64` whose range list covers
at most `mappedBlocksCount` blocks, the reported `percent()` values
are non-decreasing in chronological order.  (The recorded callback
list is most recent first, hence the `reverse`.)  The claim's further
assertion that `percent() = 100` holds exactly at
`blocksWritten = mappedBlocks` fails, see
`percent_hundred_before_completion`. -/
theorem copy_percent_monotone (b : BmapFile) (src : ℕ → ℕ)
    (st2 : CopyState) (hm : 0 < b.mappedBlocksCount)
    (hm64 : b.mappedBlocksCount < 2 ^ 64)
    (hsum : sumBlocks b.blockMap ≤ b.mappedBlocksCount)
    (hrun : copyRanges b src true = some st2) :
    (st2.callbacks.reverse.map Progress.percent).Chain' (· ≤ ·) := by
  obtain ⟨hbw, hcb⟩ := copyRanges_inv b src st2 hrun
  refine chain_percent_of_bw b.mappedBlocksCount (sumBlocks b.blockMap) hm
    hm64 hsum st2.callbacks ?_ hcb.2
  intro p hp
  obtain ⟨h1, h2⟩ := hcb.1 p hp
  exact ⟨h1, by rw [← hbw]; exact h2⟩

set_option maxRecDepth 100000 in
/-- Witness for `copy_percent_monotone` on a one-range descriptor. -/
theorem copy_percent_monotone_witness :
    ∃ st2, copyRanges bmapMonoExample srcId true = some st2 ∧
      (st2.callbacks.reverse.map Progress.percent).Chain' (· ≤ ·) :=
  ⟨_, rfl, copy_percent_monotone bmapMonoExample srcId _ (by decide)
    (by decide) (by decide) rfl⟩

/-- C1: evaluation of the copy engine at the specification's own
example (blockSize `4096`, ranges `[{0,2},{10,3}]`, distinct byte
pattern per source byte).  The seek between the ranges advances both
cursors by `range.offset - blocksWritten` BYTES (the source forgets to
multiply by the block size), so the second range is written at byte
`2*4096 + 8 = 8200` instead of byte `10*4096 = 40960`: destination
byte `40960` is untouched while byte `8200` holds source byte `8200`. -/
theorem copy_seek_bytes_not_blocks :
    (copyRanges bmapSeekExample srcId false).map (fun st => st.dst 40960) =
      some none ∧
    (copyRanges bmapSeekExample srcId false).map (fun st => st.dst 8200) =
      some (some 8200) ∧
    (copyRanges bmapSeekExample srcId false).map (fun st => st.dst 0) =
      some (some 0) ∧
    (copyRanges bmapSeekExample srcId false).map
      (fun st => st.blocksWritten) = some 5 := by
  decide

/-- C7: a descriptor document whose scalars parse but whose `BlockMap`
element is absent yields a descriptor with an empty range list, and
the copy engine driven by it performs zero reads, zero writes and
leaves every destination byte untouched. -/
theorem descriptor_without_blockmap (bytes : List Char) (root : XmlElem)
    (b : BmapFile) (src : ℕ → ℕ) (hasCb : Bool)
    (hok : BmapFile.from_xml_data bytes root = .ok b)
    (hbm : root.firstChild "BlockMap" = none) :
    b.blockMap = [] ∧
    ∃ st2, copyRanges b src hasCb = some st2 ∧ st2.reads = [] ∧
      st2.writes = [] ∧ (∀ i, st2.dst i = none) := by
  have hempty : b.blockMap = [] := by
    unfold BmapFile.from_xml_data at hok
    by_cases hb0 : bytes = []
    · rw [if_pos hb0] at hok
      cases hok
    · rw [if_neg hb0, hbm] at hok
      rcases h1 : lookupSizeT root "ImageSize" with e1 | v1
      · rw [h1] at hok
        simp [Bind.bind, Except.bind] at hok
      rw [h1] at hok
      simp only [Bind.bind, Except.bind] at hok
      rcases h2 : lookupSizeT root "BlockSize" with e2 | v2
      · rw [h2] at hok
        simp [Except.bind] at hok
      rw [h2] at hok
      simp only [Except.bind] at hok
      rcases h3 : lookupSizeT root "BlocksCount" with e3 | v3
      · rw [h3] at hok
        simp [Except.bind] at hok
      rw [h3] at hok
      simp only [Except.bind] at hok
      rcases h4 : lookupSizeT root "MappedBlocksCount" with e4 | v4
      · rw [h4] at hok
        simp [Except.bind] at hok
      rw [h4] at hok
      simp only [Except.bind] at hok
      rcases h5 : lookupString root "ChecksumType" with e5 | v5
      · rw [h5] at hok
        simp [Except.bind] at hok
      rw [h5] at hok
      simp only [Except.bind] at hok
      rcases h6 : lookupString root "BmapFileChecksum" with e6 | v6
      · rw [h6] at hok
        simp [Except.bind] at hok
      rw [h6] at hok
      simp only [Except.bind, pure, Except.pure] at hok
      cases hok
      rfl
  refine ⟨hempty, initState, ?_, rfl, rfl, fun i => rfl⟩
  unfold copyRanges
  rw [hempty]
  rfl

/-- Witness for `descriptor_without_blockmap` at a concrete document
with the six scalar elements and no `BlockMap`. -/
theorem descriptor_without_blockmap_witness :
    (⟨1048576, 4096, 256, 10, "sha256".toList, "cafe".toList, []⟩ :
      BmapFile).blockMap = [] ∧
    ∃ st2, copyRanges
        ⟨1048576, 4096, 256, 10, "sha256".toList, "cafe".toList, []⟩
        srcId true = some st2 ∧ st2.reads = [] ∧ st2.writes = [] ∧
      (∀ i, st2.dst i = none) :=
  descriptor_without_blockmap "x".toList rootNoBlockMap _ srcId true rfl rfl

/-- C8 (amended): for `0 < blockSize ≤ 8 MiB` the buffer holds
`min(2048 * blockSize, 8 MiB) / blockSize ≥ 1` blocks, and for any
range the chunk loop terminates having transferred exactly
`blockCount` blocks: both cursors advance by `blockCount * blockSize`
bytes, `blocksWritten` grows by exactly `blockCount`, each recorded
read and write moves `n * blockSize` bytes for some chunk size
`1 ≤ n ≤ bufferMaxBlocks`, reads, writes and callbacks are in
one-to-one correspondence, and every new callback carries the mapped
total and a written count within the transfer.  For
`blockSize > 8 MiB` the loop never terminates, see
`chunk_loop_stalls_on_huge_block`. -/
theorem copy_chunking (bs mapped c : ℕ) (src : ℕ → ℕ) (st : CopyState)
    (hbs : 0 < bs) (hcap : bs ≤ 2 ^ 23) :
    bufferMaxBlocks bs = min (2048 * bs) (8 * 1024 * 1024) / bs ∧
    ∃ st2,
      chunkLoop bs (bufferMaxBlocks bs) mapped src true c c st = some st2 ∧
      st2.blocksWritten = st.blocksWritten + c ∧
      st2.srcPos = st.srcPos + c * bs ∧
      st2.dstPos = st.dstPos + c * bs ∧
      (∃ k, st2.reads.length = k + st.reads.length ∧
        st2.writes.length = k + st.writes.length ∧
        st2.callbacks.length = k + st.callbacks.length) ∧
      (∀ pr ∈ st2.reads, pr ∈ st.reads ∨
        ∃ n, 1 ≤ n ∧ n ≤ bufferMaxBlocks bs ∧ pr.2 = n * bs) ∧
      (∀ pr ∈ st2.writes, pr ∈ st.writes ∨
        ∃ n, 1 ≤ n ∧ n ≤ bufferMaxBlocks bs ∧ pr.2 = n * bs) ∧
      (∀ p ∈ st2.callbacks, p ∈ st.callbacks ∨
        (p.mappedBlocks = mapped ∧
          p.blocksWritten ≤ st.blocksWritten + c)) := by
  have hsmall : bs * 1024 * 2 < 2 ^ 64 := by
    calc bs * 1024 * 2 ≤ 2 ^ 23 * 1024 * 2 :=
      Nat.mul_le_mul_right 2 (Nat.mul_le_mul_right 1024 hcap)
    _ < 2 ^ 64 := by norm_num
  have heq : bufferMaxBlocks bs = min (2048 * bs) (8 * 1024 * 1024) / bs := by
    unfold bufferMaxBlocks MAX_BUF_SIZE
    rw [Nat.mod_eq_of_lt hsmall]
    have harith : bs * 1024 * 2 = 2048 * bs := by ring
    rw [harith]
  have hmaxB : 0 < bufferMaxBlocks bs := by
    rw [heq]
    refine Nat.div_pos (le_min ?_ ?_) hbs
    · exact Nat.le_mul_of_pos_left bs (by norm_num)
    · calc bs ≤ 2 ^ 23 := hcap
      _ ≤ 8 * 1024 * 1024 := by norm_num
  exact ⟨heq, chunkLoop_total bs (bufferMaxBlocks bs) mapped src hmaxB c c st
    (le_refl c)⟩

set_option maxRecDepth 100000 in
/-- Counterexample to C8: with `blockSize = 2^24` (16 MiB, above the
8 MiB buffer cap) the buffer holds zero blocks, every iteration
transfers zero blocks, and the chunk loop never completes even a
one-block range — shown here for fuel `1` and for fuel `1000000`
(`chunkLoop_maxB_zero` shows it for every fuel). -/
theorem chunk_loop_stalls_on_huge_block :
    bufferMaxBlocks (2 ^ 24) = 0 ∧
    chunkLoop (2 ^ 24) (bufferMaxBlocks (2 ^ 24)) 1 srcId true 1 1
      initState = none ∧
    chunkLoop (2 ^ 24) (bufferMaxBlocks (2 ^ 24)) 1 srcId true 1000000 1
      initState = none := by
  have h0 : bufferMaxBlocks (2 ^ 24) = 0 := by decide
  refine ⟨h0, ?_, ?_⟩ <;> rw [h0] <;>
    exact chunkLoop_maxB_zero _ _ _ _ _ _ _ (by norm_num)

/-- Witness for `copy_chunking` at `blockSize = 4096` and a
`5000`-block range (three chunks: 2048 + 2048 + 904). -/
theorem copy_chunking_witness :
    bufferMaxBlocks 4096 = min (2048 * 4096) (8 * 1024 * 1024) / 4096 ∧
    ∃ st2,
      chunkLoop 4096 (bufferMaxBlocks 4096) 10 srcId true 5000 5000
        initState = some st2 ∧
      st2.blocksWritten = initState.blocksWritten + 5000 ∧
      st2.srcPos = initState.srcPos + 5000 * 4096 ∧
      st2.dstPos = initState.dstPos + 5000 * 4096 ∧
      (∃ k, st2.reads.length = k + initState.reads.length ∧
        st2.writes.length = k + initState.writes.length ∧
        st2.callbacks.length = k + initState.callbacks.length) ∧
      (∀ pr ∈ st2.reads, pr ∈ initState.reads ∨
        ∃ n, 1 ≤ n ∧ n ≤ bufferMaxBlocks 4096 ∧ pr.2 = n * 4096) ∧
      (∀ pr ∈ st2.writes, pr ∈ initState.writes ∨
        ∃ n, 1 ≤ n ∧ n ≤ bufferMaxBlocks 4096 ∧ pr.2 = n * 4096) ∧
      (∀ p ∈ st2.callbacks, p ∈ initState.callbacks ∨
        (p.mappedBlocks = 10 ∧
          p.blocksWritten ≤ initState.blocksWritten + 5000)) :=
  copy_chunking 4096 10 5000 srcId initState (by norm_num) (by norm_num)

end Bmap
